import Mathlib

/-!
# FileBrowser: the lazy file tree model of `src/main.cpp`

A shallow embedding of the two classes of `main.cpp`:

* `FileItem`  (lines 16-69): one filesystem entry with a lazily loaded child list;
* `FileModel` (lines 71-135): the `QAbstractItemModel` adapter over a root `FileItem`.

C++ objects live in an explicit heap (`Heap.items`); a `FileItem*` is the position of the
object in that heap (`none` is `nullptr`), `new` allocates at the end, and nothing is freed
while the model lives (destructors run only at teardown).  Dereferencing a pointer that is not
in the heap is undefined behaviour in C++ and is the fault result `none` here.

The Qt library is not part of the repository.  Its value types (`QFileInfo`, `QDateTime`,
`QModelIndex`, `QVariant`) are modelled by their documented observable content, and the
directory listing `QDir::entryInfoList` by the filesystem primitive of the specification.
Rows are C++ `int`; they are modelled as unbounded `Int`, i.e. a directory is assumed to hold
fewer than `2^31` entries.
-/

namespace FileBrowser

/-! ## Qt value types -/

/-- The content of a `QDateTime` that the format `yyyy-MM-dd hh:mm` reads. -/
structure QDateTime where
  valid : Bool
  year : Nat
  month : Nat
  day : Nat
  hour : Nat
  minute : Nat
deriving DecidableEq, Repr

/-- Decimal rendering of `n`, zero padded on the left to at least `width` characters. -/
def padZero (width n : Nat) : String :=
  String.mk (List.replicate (width - (Nat.repr n).length) '0') ++ Nat.repr n

/-- The call `QDateTime::toString("yyyy-MM-dd hh:mm")`; an invalid date renders as the empty
string. -/
def QDateTime.toString (d : QDateTime) : String :=
  if d.valid then
    padZero 4 d.year ++ "-" ++ padZero 2 d.month ++ "-" ++ padZero 2 d.day ++ " " ++
      padZero 2 d.hour ++ ":" ++ padZero 2 d.minute
  else ""

/-- The metadata of one filesystem entry as cached by a `QFileInfo`. -/
structure QFileInfo where
  fileName : String
  absoluteFilePath : String
  isDir : Bool
  size : Nat
  suffix : String
  lastModified : QDateTime
deriving DecidableEq, Repr

/-- The call `QString::number(n)` on a byte size: its decimal rendering. -/
def QString.number (n : Nat) : String := Nat.repr n

/-- A `QVariant` as returned by `data`: `none` is the invalid `QVariant()`, `some s` holds the
string `s`. -/
abbrev QVariant := Option String

/-- The enumerator `Qt::DisplayRole`. -/
def Qt.DisplayRole : Int := 0

/-- The enumerator `Qt::UserRole` (`0x0100`). -/
def Qt.UserRole : Int := 256

/-- A `QModelIndex`: row, column, internal pointer and whether it carries a model.  Two
indexes are equal when all four agree. -/
structure QModelIndex where
  row : Int
  column : Int
  internalPointer : Option Nat
  hasModel : Bool
deriving DecidableEq, Repr

/-- The default constructed `QModelIndex()`: the "no parent" / "invalid address" sentinel. -/
def QModelIndex.invalid : QModelIndex := ⟨-1, -1, none, false⟩

/-- The test `QModelIndex::isValid()`: non-negative row and column, and a model. -/
def QModelIndex.isValid (i : QModelIndex) : Bool :=
  decide (0 ≤ i.row) && decide (0 ≤ i.column) && i.hasModel

/-- The call `QAbstractItemModel::createIndex(row, column, ptr)` of this model. -/
def createIndex (row column : Int) (ptr : Nat) : QModelIndex := ⟨row, column, some ptr, true⟩

/-! ## The filesystem collaborator -/

/-- The filesystem at the time of a call: for a directory path, the entries that the filter
`QDir::AllEntries` admits, in on-disk order (possibly with "." and ".."), or `none` when the
directory cannot be enumerated (permission denied, path removed, not a directory). -/
abbrev FileSystem := String → Option (List QFileInfo)

/-- The filter `QDir::NoDotAndDotDot`. -/
def noDotAndDotDot (e : QFileInfo) : Bool := e.fileName != "." && e.fileName != ".."

/-- The comparison `QString::compare(a, b) < 0` on the characters of two strings:
lexicographic by character code (case sensitive), a proper prefix first. -/
def QString.lt : List Char → List Char → Bool
  | [], [] => false
  | [], _ :: _ => true
  | _ :: _, [] => false
  | a :: as, b :: bs =>
    if a.toNat < b.toNat then true
    else if b.toNat < a.toNat then false
    else QString.lt as bs

/-- Strict name order of two entries. -/
def nameLT (a b : QFileInfo) : Prop := QString.lt a.fileName.data b.fileName.data = true

/-- The sort order `QDir::Name`: by file name, ascending (`a` may stand before `b`). -/
def nameLE (a b : QFileInfo) : Prop := QString.lt b.fileName.data a.fileName.data = false

instance : DecidableRel nameLT := fun a b =>
  inferInstanceAs (Decidable (QString.lt a.fileName.data b.fileName.data = true))

instance : DecidableRel nameLE := fun a b =>
  inferInstanceAs (Decidable (QString.lt b.fileName.data a.fileName.data = false))

/-- Modelled from the spec: the Qt call
`QDir(path).entryInfoList(QDir::NoDotAndDotDot | QDir::AllEntries, QDir::Name)`, which is
library code outside `src/`.  It is the specification's primitive "list immediate directory
entries, sorted by name", without "." and ".."; a failed enumeration yields the empty list and
no error. -/
def entryInfoList (fs : FileSystem) (path : String) : List QFileInfo :=
  match fs path with
  | none => []
  | some es => (es.filter noDotAndDotDot).insertionSort nameLE

/-! ## The heap of `FileItem` objects -/

/-- The class `FileItem` (private members, lines 64-68). -/
structure FileItem where
  fileInfo : QFileInfo
  parentItem : Option Nat
  children : List Nat
  childrenLoaded : Bool
deriving DecidableEq, Repr

/-- The constructor `FileItem(info, parent)` (lines 18-19). -/
def FileItem.mk0 (info : QFileInfo) (parent : Option Nat) : FileItem :=
  { fileInfo := info, parentItem := parent, children := [], childrenLoaded := false }

/-- The program state: the allocated `FileItem` objects, and the log of the directory paths
handed to the listing primitive (most recent first). -/
structure Heap where
  items : List FileItem
  listed : List String
deriving DecidableEq, Repr

/-- Overwrite the object at `p` by `f` of it. -/
def Heap.update (h : Heap) (p : Nat) (f : FileItem → FileItem) : Heap :=
  match h.items[p]? with
  | none => h
  | some it => { h with items := h.items.set p (f it) }

/-- One iteration of the loop of `loadChildren` (line 32):
`children.append(new FileItem(entry, this))`. -/
def appendChild (self : Nat) (h : Heap) (entry : QFileInfo) : Heap :=
  let c := h.items.length
  let h1 : Heap := { h with items := h.items ++ [FileItem.mk0 entry (some self)] }
  h1.update self (fun it => { it with children := it.children ++ [c] })

/-- The method `FileItem::loadChildren` (lines 25-35). -/
def FileItem.loadChildren (fs : FileSystem) (h : Heap) (self : Nat) : Option Heap :=
  match h.items[self]? with
  | none => none
  | some it =>
    if it.childrenLoaded || !it.fileInfo.isDir then some h
    else
      let entries := entryInfoList fs it.fileInfo.absoluteFilePath
      let h1 : Heap := { h with listed := it.fileInfo.absoluteFilePath :: h.listed }
      let h2 := entries.foldl (appendChild self) h1
      some (h2.update self (fun it => { it with childrenLoaded := true }))

/-- The method `FileItem::child` (lines 37-40). -/
def FileItem.child (fs : FileSystem) (h : Heap) (self : Nat) (row : Int) :
    Option (Heap × Option Nat) :=
  match FileItem.loadChildren fs h self with
  | none => none
  | some h1 =>
    match h1.items[self]? with
    | none => none
    | some it =>
      some (h1, if 0 ≤ row ∧ row < (it.children.length : Int) then it.children[row.toNat]?
                else none)

/-- The method `FileItem::childCount` (lines 42-45). -/
def FileItem.childCount (fs : FileSystem) (h : Heap) (self : Nat) : Option (Heap × Int) :=
  match FileItem.loadChildren fs h self with
  | none => none
  | some h1 =>
    match h1.items[self]? with
    | none => none
    | some it => some (h1, (it.children.length : Int))

/-- The call `QVector::indexOf`: the first position of `x`, or `-1`. -/
def indexOf (l : List Nat) (x : Nat) : Int :=
  if x ∈ l then (l.indexOf x : Int) else -1

/-- The method `FileItem::row` (lines 47-49). -/
def FileItem.row (h : Heap) (self : Nat) : Option Int :=
  match h.items[self]? with
  | none => none
  | some it =>
    match it.parentItem with
    | none => some 0
    | some p =>
      match h.items[p]? with
      | none => none
      | some pit => some (indexOf pit.children self)

/-- The method `FileItem::data` (lines 51-60), on the object itself. -/
def FileItem.data (it : FileItem) (role : Int) : QVariant :=
  if role = Qt.DisplayRole ∨ role = Qt.UserRole + 1 then some it.fileInfo.fileName
  else if role = Qt.UserRole + 2 then
    some (if it.fileInfo.isDir then "<DIR>" else QString.number it.fileInfo.size)
  else if role = Qt.UserRole + 3 then some it.fileInfo.suffix
  else if role = Qt.UserRole + 4 then some it.fileInfo.lastModified.toString
  else none

/-- The method `FileItem::parent` (line 62). -/
def FileItem.parent (h : Heap) (self : Nat) : Option (Option Nat) :=
  match h.items[self]? with
  | none => none
  | some it => some it.parentItem

/-! ## The model -/

/-- The class `FileModel` (private member, line 134). -/
structure FileModel where
  rootItem : Nat
deriving DecidableEq, Repr

/-- The enumeration `FileModel::Roles` (lines 75-80). -/
def FileModel.NameRole : Int := Qt.UserRole + 1

/-- Second enumerator of `FileModel::Roles`. -/
def FileModel.SizeRole : Int := FileModel.NameRole + 1

/-- Third enumerator of `FileModel::Roles`. -/
def FileModel.TypeRole : Int := FileModel.SizeRole + 1

/-- Fourth enumerator of `FileModel::Roles`. -/
def FileModel.ModifiedRole : Int := FileModel.TypeRole + 1

/-- The constructor `FileModel(rootPath)` (lines 84-87) on a fresh heap; `rootInfo` is
`QFileInfo(rootPath)`, the filesystem's resolution of the starting path. -/
def FileModel.create (rootInfo : QFileInfo) : FileModel × Heap :=
  ({ rootItem := 0 }, { items := [FileItem.mk0 rootInfo none], listed := [] })

/-- The resolution `parent.isValid() ? static_cast<FileItem*>(parent.internalPointer())
: rootItem` of lines 94 and 110. -/
def FileModel.resolve (m : FileModel) (parent : QModelIndex) : Option Nat :=
  if parent.isValid then parent.internalPointer else some m.rootItem

/-- The method `FileModel::index` (lines 93-97). -/
def FileModel.index (m : FileModel) (fs : FileSystem) (h : Heap) (row column : Int)
    (parent : QModelIndex) : Option (Heap × QModelIndex) :=
  match m.resolve parent with
  | none => none
  | some parentItem =>
    match FileItem.child fs h parentItem row with
    | none => none
    | some (h1, some childItem) => some (h1, createIndex row column childItem)
    | some (h1, none) => some (h1, QModelIndex.invalid)

/-- The method `FileModel::parent` (lines 99-107). -/
def FileModel.parent (m : FileModel) (h : Heap) (index : QModelIndex) : Option QModelIndex :=
  if !index.isValid then some QModelIndex.invalid
  else
    match index.internalPointer with
    | none => none
    | some childItem =>
      match FileItem.parent h childItem with
      | none => none
      | some none => some QModelIndex.invalid
      | some (some parentItem) =>
        if parentItem = m.rootItem then some QModelIndex.invalid
        else
          match FileItem.row h parentItem with
          | none => none
          | some r => some (createIndex r 0 parentItem)

/-- The method `FileModel::rowCount` (lines 109-112). -/
def FileModel.rowCount (m : FileModel) (fs : FileSystem) (h : Heap) (parent : QModelIndex) :
    Option (Heap × Int) :=
  match m.resolve parent with
  | none => none
  | some parentItem => FileItem.childCount fs h parentItem

/-- The method `FileModel::columnCount` (lines 114-116). -/
def FileModel.columnCount (_m : FileModel) (_parent : QModelIndex) : Int := 1

/-- The method `FileModel::data` (lines 118-122). -/
def FileModel.data (_m : FileModel) (h : Heap) (index : QModelIndex) (role : Int) :
    Option QVariant :=
  if !index.isValid then some none
  else
    match index.internalPointer with
    | none => none
    | some item =>
      match h.items[item]? with
      | none => none
      | some it => some (it.data role)

/-- The method `FileModel::roleNames` (lines 124-131). -/
def FileModel.roleNames : List (Int × String) :=
  [(FileModel.NameRole, "name"), (FileModel.SizeRole, "size"),
   (FileModel.TypeRole, "type"), (FileModel.ModifiedRole, "modified")]

/-- Runs of the model's state changing operations (`index` and `rowCount`; `parent`, `data`,
`columnCount` and `roleNames` are `const` and only read), each call seeing the filesystem of
its moment: `Steps m h h1` says that some run leads from heap `h` to heap `h1`. -/
inductive Steps (m : FileModel) : Heap → Heap → Prop
  | refl (h : Heap) : Steps m h h
  | index {h h1 h2 : Heap} (fs : FileSystem) (row column : Int) (parent r : QModelIndex) :
      Steps m h h1 → m.index fs h1 row column parent = some (h2, r) → Steps m h h2
  | rowCount {h h1 h2 : Heap} (fs : FileSystem) (parent : QModelIndex) (n : Int) :
      Steps m h h1 → m.rowCount fs h1 parent = some (h2, n) → Steps m h h2

/-- The states reachable from the construction of the model on `rootInfo` by model
operations. -/
def Reachable (rootInfo : QFileInfo) (m : FileModel) (h : Heap) : Prop :=
  m = (FileModel.create rootInfo).1 ∧ Steps m (FileModel.create rootInfo).2 h

/-- Runs of all the operations of the two classes, on any node and any address: the state
changing `index`, `rowCount`, `child` and `childCount` (each seeing the filesystem of its
moment), and the `const` methods `parent`, `data` and `row`, which return no heap.
`Calls m h h1` says that some such run leads from heap `h` to heap `h1`. -/
inductive Calls (m : FileModel) : Heap → Heap → Prop
  | refl (h : Heap) : Calls m h h
  | index {h h1 h2 : Heap} (fs : FileSystem) (row column : Int) (parent r : QModelIndex) :
      Calls m h h1 → m.index fs h1 row column parent = some (h2, r) → Calls m h h2
  | rowCount {h h1 h2 : Heap} (fs : FileSystem) (parent : QModelIndex) (n : Int) :
      Calls m h h1 → m.rowCount fs h1 parent = some (h2, n) → Calls m h h2
  | child {h h1 h2 : Heap} (fs : FileSystem) (p : Nat) (row : Int) (r : Option Nat) :
      Calls m h h1 → FileItem.child fs h1 p row = some (h2, r) → Calls m h h2
  | childCount {h h1 h2 : Heap} (fs : FileSystem) (p : Nat) (n : Int) :
      Calls m h h1 → FileItem.childCount fs h1 p = some (h2, n) → Calls m h h2
  | parent {h h1 : Heap} (index r : QModelIndex) :
      Calls m h h1 → m.parent h1 index = some r → Calls m h h1
  | data {h h1 : Heap} (index : QModelIndex) (role : Int) (v : QVariant) :
      Calls m h h1 → m.data h1 index role = some v → Calls m h h1
  | row {h h1 : Heap} (p : Nat) (r : Int) :
      Calls m h h1 → FileItem.row h1 p = some r → Calls m h h1

/-! ## Auxiliary definitions of the proofs -/

/-- Closed form of the heap after the loop of `loadChildren` has run over the entries `es`
for the node `self`, whose object was `it` before the loop. -/
def afterLoop (self : Nat) (h : Heap) (it : FileItem) (es : List QFileInfo) : Heap :=
  { items := h.items.set self
        { it with children := it.children ++ List.range' h.items.length es.length } ++
      es.map (fun e => FileItem.mk0 e (some self)),
    listed := h.listed }

/-- Closed form of the heap after `loadChildren` has really loaded the node `self`, whose
object was `it` before the call. -/
def afterLoad (fs : FileSystem) (h : Heap) (self : Nat) (it : FileItem) : Heap :=
  { items := h.items.set self
        { it with
          children := it.children ++
            List.range' h.items.length (entryInfoList fs it.fileInfo.absoluteFilePath).length,
          childrenLoaded := true } ++
      (entryInfoList fs it.fileInfo.absoluteFilePath).map (fun e => FileItem.mk0 e (some self)),
    listed := it.fileInfo.absoluteFilePath :: h.listed }

/-- Well-formedness of the object graph under the root of model `m`. -/
structure WF (m : FileModel) (h : Heap) : Prop where
  root : ∃ it : FileItem, h.items[m.rootItem]? = some it ∧ it.parentItem = none
  rootOnly : ∀ (p : Nat) (it : FileItem), h.items[p]? = some it → it.parentItem = none →
    p = m.rootItem
  childParent : ∀ (p : Nat) (it : FileItem) (c : Nat), h.items[p]? = some it →
    c ∈ it.children → ∃ ic : FileItem, h.items[c]? = some ic ∧ ic.parentItem = some p
  parentChild : ∀ (c : Nat) (ic : FileItem) (p : Nat), h.items[c]? = some ic →
    ic.parentItem = some p → ∃ ip : FileItem, h.items[p]? = some ip ∧ c ∈ ip.children
  nodup : ∀ (p : Nat) (it : FileItem), h.items[p]? = some it → it.children.Nodup
  unloaded : ∀ (p : Nat) (it : FileItem), h.items[p]? = some it →
    it.childrenLoaded = false → it.children = []
  loadedDir : ∀ (p : Nat) (it : FileItem), h.items[p]? = some it →
    it.childrenLoaded = true → it.fileInfo.isDir = true

/-! ## Example data -/

/-- A date used by the examples. -/
def exDate : QDateTime := ⟨true, 2024, 5, 17, 9, 3⟩

/-- A file entry named `n` in directory path `dir`. -/
def exFile (dir n sfx : String) (sz : Nat) : QFileInfo :=
  ⟨n, dir ++ "/" ++ n, false, sz, sfx, exDate⟩

/-- A directory entry named `n` in directory path `dir`. -/
def exDir (dir n : String) : QFileInfo :=
  ⟨n, dir ++ "/" ++ n, true, 4096, "", exDate⟩

/-- The root entry of the examples. -/
def exRoot : QFileInfo := ⟨"r", "/r", true, 4096, "", exDate⟩

/-- A filesystem: `/r` holds `b.txt`, `a_dir`, `c.log` (in this on-disk order, after "." and
".."), `/r/a_dir` holds `x.md`; every other path cannot be listed. -/
def exFS : FileSystem := fun path =>
  if path = "/r" then
    some [exDir "/r" ".", exDir "/r" "..", exFile "/r" "b.txt" "txt" 12, exDir "/r" "a_dir",
          exFile "/r" "c.log" "log" 7]
  else if path = "/r/a_dir" then some [exFile "/r/a_dir" "x.md" "md" 3]
  else none

/-- The model of the examples. -/
def exModel : FileModel := (FileModel.create exRoot).1

/-- The heap of the examples right after construction: the root alone, not loaded. -/
def exHeap0 : Heap := (FileModel.create exRoot).2

/-- The heap after the first `index` call on the top level, which loads the root: the root
at 0, then `a_dir` at 1, `b.txt` at 2 and `c.log` at 3. -/
def exHeap1 : Heap :=
  match exModel.index exFS exHeap0 0 0 QModelIndex.invalid with
  | some (h, _) => h
  | none => exHeap0

/-- The heap after `rowCount` on the address of `a_dir` in `exHeap1`, which loads `a_dir`:
`x.md` is allocated at 4. -/
def exHeap2 : Heap :=
  match exModel.rowCount exFS exHeap1 (createIndex 0 0 1) with
  | some (h, _) => h
  | none => exHeap1

/-! ## Heap mechanics of `loadChildren` -/

theorem set_self_of_getElem? {α : Type} (l : List α) (i : Nat) (a : α) (hl : l[i]? = some a) :
    l.set i a = l := by
  apply List.ext_getElem?
  intro j
  rw [List.getElem?_set]
  by_cases hij : i = j
  · subst hij
    have hlt : i < l.length := (List.getElem?_eq_some.mp hl).1
    simp [hlt, hl]
  · simp [hij]

theorem lt_of_getElem?_eq_some {α : Type} {l : List α} {i : Nat} {a : α} (hl : l[i]? = some a) :
    i < l.length := (List.getElem?_eq_some.mp hl).1

theorem appendChild_eq (self : Nat) (h : Heap) (it : FileItem) (e : QFileInfo)
    (hs : h.items[self]? = some it) :
    appendChild self h e =
      { items := h.items.set self { it with children := it.children ++ [h.items.length] } ++
          [FileItem.mk0 e (some self)],
        listed := h.listed } := by
  have hlt : self < h.items.length := lt_of_getElem?_eq_some hs
  have h1 : (h.items ++ [FileItem.mk0 e (some self)])[self]? = some it := by
    rw [List.getElem?_append_left hlt]; exact hs
  simp only [appendChild, Heap.update, h1]
  rw [List.set_append_left _ _ hlt]

theorem foldl_appendChild (self : Nat) (es : List QFileInfo) :
    ∀ (h : Heap) (it : FileItem), h.items[self]? = some it →
      es.foldl (appendChild self) h = afterLoop self h it es := by
  induction es with
  | nil =>
    intro h it hs
    simp [afterLoop, set_self_of_getElem? _ _ _ hs]
  | cons e es ih =>
    intro h it hs
    have hlt : self < h.items.length := lt_of_getElem?_eq_some hs
    rw [List.foldl_cons, appendChild_eq self h it e hs]
    have hs2 : (h.items.set self { it with children := it.children ++ [h.items.length] } ++
        [FileItem.mk0 e (some self)])[self]? =
        some { it with children := it.children ++ [h.items.length] } := by
      rw [List.getElem?_append_left (by simpa using hlt)]
      simp [hlt]
    rw [ih _ _ hs2]
    simp only [afterLoop, List.length_append, List.length_set, List.length_singleton,
      List.length_cons, List.map_cons]
    rw [List.set_append_left _ _ (by simpa using hlt), List.set_set, List.range'_succ]
    simp [List.append_assoc]

theorem loadChildren_eq (fs : FileSystem) (h : Heap) (self : Nat) (it : FileItem)
    (hs : h.items[self]? = some it) :
    FileItem.loadChildren fs h self =
      some (if it.childrenLoaded || !it.fileInfo.isDir then h else afterLoad fs h self it) := by
  simp only [FileItem.loadChildren, hs]
  split
  · rfl
  · have hs1 : ({ h with listed := it.fileInfo.absoluteFilePath :: h.listed } : Heap).items[self]?
        = some it := hs
    rw [foldl_appendChild self _ _ it hs1]
    have hlt : self < h.items.length := lt_of_getElem?_eq_some hs
    have hs2 : (afterLoop self { h with listed := it.fileInfo.absoluteFilePath :: h.listed } it
        (entryInfoList fs it.fileInfo.absoluteFilePath)).items[self]? =
        some { it with children := (it.children ++ List.range' h.items.length
          (entryInfoList fs it.fileInfo.absoluteFilePath).length) } := by
      simp only [afterLoop]
      rw [List.getElem?_append_left (by simpa using hlt)]
      simp [hlt]
    simp only [Heap.update, hs2]
    simp only [afterLoop, afterLoad]
    rw [List.set_append_left _ _ (by simpa using hlt), List.set_set]

theorem loadChildren_none (fs : FileSystem) (h : Heap) (self : Nat)
    (hs : h.items[self]? = none) : FileItem.loadChildren fs h self = none := by
  simp only [FileItem.loadChildren, hs]

theorem loadChildren_valid {fs : FileSystem} {h h1 : Heap} {self : Nat}
    (hl : FileItem.loadChildren fs h self = some h1) : ∃ it, h.items[self]? = some it := by
  cases hs : h.items[self]? with
  | none => rw [loadChildren_none fs h self hs] at hl; cases hl
  | some it => exact ⟨it, rfl⟩

/-- The object of the loaded node after `afterLoad`. -/
theorem afterLoad_self (fs : FileSystem) (h : Heap) (self : Nat) (it : FileItem)
    (hs : h.items[self]? = some it) :
    (afterLoad fs h self it).items[self]? =
      some { it with
        children := it.children ++
          List.range' h.items.length (entryInfoList fs it.fileInfo.absoluteFilePath).length,
        childrenLoaded := true } := by
  have hlt : self < h.items.length := lt_of_getElem?_eq_some hs
  simp only [afterLoad]
  rw [List.getElem?_append_left (by simpa using hlt)]
  simp [hlt]

/-- Objects other than the loaded node are untouched by `afterLoad`. -/
theorem afterLoad_old (fs : FileSystem) (h : Heap) (self : Nat) (it : FileItem) (q : Nat)
    (hq : q < h.items.length) (hne : q ≠ self) :
    (afterLoad fs h self it).items[q]? = h.items[q]? := by
  simp only [afterLoad]
  rw [List.getElem?_append_left (by simpa using hq)]
  rw [List.getElem?_set_ne (Ne.symm hne)]

/-- The objects allocated by `afterLoad`. -/
theorem afterLoad_new (fs : FileSystem) (h : Heap) (self : Nat) (it : FileItem) (q : Nat)
    (hq : h.items.length ≤ q) :
    (afterLoad fs h self it).items[q]? =
      ((entryInfoList fs it.fileInfo.absoluteFilePath)[q - h.items.length]?).map
        (fun e => FileItem.mk0 e (some self)) := by
  simp only [afterLoad]
  rw [List.getElem?_append_right (by simpa using hq)]
  simp

/-- Every object of the heap after `afterLoad` is the loaded node, an untouched old object or
a freshly allocated child. -/
theorem afterLoad_cases (fs : FileSystem) (h : Heap) (self : Nat) (it : FileItem)
    (hs : h.items[self]? = some it) (q : Nat) (x : FileItem)
    (hx : (afterLoad fs h self it).items[q]? = some x) :
    (q = self ∧ x = { it with
        children := it.children ++
          List.range' h.items.length (entryInfoList fs it.fileInfo.absoluteFilePath).length,
        childrenLoaded := true }) ∨
    (q ≠ self ∧ h.items[q]? = some x) ∨
    (h.items.length ≤ q ∧
      q < h.items.length + (entryInfoList fs it.fileInfo.absoluteFilePath).length ∧
      ∃ e, (entryInfoList fs it.fileInfo.absoluteFilePath)[q - h.items.length]? = some e ∧
        x = FileItem.mk0 e (some self)) := by
  by_cases hqs : q = self
  · subst hqs
    rw [afterLoad_self fs h q it hs] at hx
    exact Or.inl ⟨rfl, (Option.some.inj hx).symm⟩
  · by_cases hq : q < h.items.length
    · rw [afterLoad_old fs h self it q hq hqs] at hx
      exact Or.inr (Or.inl ⟨hqs, hx⟩)
    · have hq1 : h.items.length ≤ q := Nat.le_of_not_lt hq
      rw [afterLoad_new fs h self it q hq1] at hx
      cases he : (entryInfoList fs it.fileInfo.absoluteFilePath)[q - h.items.length]? with
      | none => rw [he] at hx; cases hx
      | some e =>
        rw [he] at hx
        have hlt := lt_of_getElem?_eq_some he
        refine Or.inr (Or.inr ⟨hq1, by omega, e, rfl, ?_⟩)
        exact (Option.some.inj hx).symm

/-- An old object survives `afterLoad` with the same metadata and parent link, and unchanged
altogether unless it is the loaded node. -/
theorem afterLoad_keep (fs : FileSystem) (h : Heap) (self : Nat) (it : FileItem)
    (hs : h.items[self]? = some it) (q : Nat) (x : FileItem) (hx : h.items[q]? = some x) :
    ∃ x1, (afterLoad fs h self it).items[q]? = some x1 ∧ x1.parentItem = x.parentItem ∧
      x1.fileInfo = x.fileInfo ∧ (q ≠ self → x1 = x) := by
  by_cases hqs : q = self
  · subst hqs
    rw [hs] at hx
    cases hx
    exact ⟨_, afterLoad_self fs h q it hs, rfl, rfl, fun hne => absurd rfl hne⟩
  · refine ⟨x, ?_, rfl, rfl, fun _ => rfl⟩
    rw [afterLoad_old fs h self it q (lt_of_getElem?_eq_some hx) hqs]
    exact hx

/-- The fresh child at position `i` of the listing. -/
theorem afterLoad_fresh (fs : FileSystem) (h : Heap) (self : Nat) (it : FileItem) (i : Nat)
    (hi : i < (entryInfoList fs it.fileInfo.absoluteFilePath).length) :
    ∃ e, (entryInfoList fs it.fileInfo.absoluteFilePath)[i]? = some e ∧
      (afterLoad fs h self it).items[h.items.length + i]? =
        some (FileItem.mk0 e (some self)) := by
  refine ⟨(entryInfoList fs it.fileInfo.absoluteFilePath)[i], List.getElem?_eq_getElem hi, ?_⟩
  rw [afterLoad_new fs h self it _ (Nat.le_add_right _ _)]
  simp [List.getElem?_eq_getElem hi]

theorem WF_afterLoad {m : FileModel} {h : Heap} (fs : FileSystem) (self : Nat) (it : FileItem)
    (wf : WF m h) (hs : h.items[self]? = some it) (hl : it.childrenLoaded = false)
    (hd : it.fileInfo.isDir = true) : WF m (afterLoad fs h self it) := by
  have hch : it.children = [] := wf.unloaded self it hs hl
  constructor
  · obtain ⟨r, hr, hrp⟩ := wf.root
    obtain ⟨x1, hx1, hp1, _, _⟩ := afterLoad_keep fs h self it hs _ r hr
    exact ⟨x1, hx1, hp1.trans hrp⟩
  · intro p x hx hnone
    rcases afterLoad_cases fs h self it hs p x hx with ⟨hp, hxe⟩ | ⟨_, hold⟩ | ⟨_, _, e, _, hxe⟩
    · subst hp; subst hxe
      exact wf.rootOnly p it hs hnone
    · exact wf.rootOnly p x hold hnone
    · subst hxe; cases hnone
  · intro p x c hx hc
    rcases afterLoad_cases fs h self it hs p x hx with ⟨hp, hxe⟩ | ⟨hne, hold⟩ | ⟨_, _, e, _, hxe⟩
    · subst hp; subst hxe
      simp only [hch, List.nil_append, List.mem_range'] at hc
      obtain ⟨i, hi, hci⟩ := hc
      obtain ⟨e, _, hf⟩ := afterLoad_fresh fs h p it i hi
      refine ⟨FileItem.mk0 e (some p), ?_, rfl⟩
      rw [hci, Nat.one_mul]
      exact hf
    · obtain ⟨ic, hic, hicp⟩ := wf.childParent p x c hold hc
      obtain ⟨x1, hx1, hp1, _, _⟩ := afterLoad_keep fs h self it hs c ic hic
      exact ⟨x1, hx1, hp1.trans hicp⟩
    · subst hxe
      simp [FileItem.mk0] at hc
  · intro c x p hx hxp
    rcases afterLoad_cases fs h self it hs c x hx with ⟨hc, hxe⟩ | ⟨hne, hold⟩ | ⟨hge, hlt, e, _, hxe⟩
    · subst hc; subst hxe
      obtain ⟨ip, hip, hmem⟩ := wf.parentChild c it p hs hxp
      by_cases hpc : p = c
      · subst hpc
        rw [hs] at hip
        cases hip
        rw [hch] at hmem
        cases hmem
      · obtain ⟨x1, hx1, _, _, hsame⟩ := afterLoad_keep fs h c it hs p ip hip
        rw [hsame hpc] at hx1
        exact ⟨ip, hx1, hmem⟩
    · obtain ⟨ip, hip, hmem⟩ := wf.parentChild c x p hold hxp
      by_cases hps : p = self
      · subst hps
        rw [hs] at hip
        cases hip
        rw [hch] at hmem
        cases hmem
      · obtain ⟨x1, hx1, _, _, hsame⟩ := afterLoad_keep fs h self it hs p ip hip
        rw [hsame hps] at hx1
        exact ⟨ip, hx1, hmem⟩
    · subst hxe
      simp only [FileItem.mk0, Option.some.injEq] at hxp
      subst hxp
      refine ⟨_, afterLoad_self fs h self it hs, ?_⟩
      simp only [hch, List.nil_append, List.mem_range']
      exact ⟨c - h.items.length, by omega, by omega⟩
  · intro p x hx
    rcases afterLoad_cases fs h self it hs p x hx with ⟨hp, hxe⟩ | ⟨_, hold⟩ | ⟨_, _, e, _, hxe⟩
    · subst hxe
      simp only [hch, List.nil_append]
      exact List.nodup_range' _ _
    · exact wf.nodup p x hold
    · subst hxe
      simp [FileItem.mk0]
  · intro p x hx hxl
    rcases afterLoad_cases fs h self it hs p x hx with ⟨hp, hxe⟩ | ⟨_, hold⟩ | ⟨_, _, e, _, hxe⟩
    · subst hxe
      cases hxl
    · exact wf.unloaded p x hold hxl
    · subst hxe
      rfl
  · intro p x hx hxl
    rcases afterLoad_cases fs h self it hs p x hx with ⟨hp, hxe⟩ | ⟨_, hold⟩ | ⟨_, _, e, _, hxe⟩
    · subst hxe
      exact hd
    · exact wf.loadedDir p x hold hxl
    · subst hxe
      cases hxl

/-- What `loadChildren` returns on a valid node: the heap untouched, or the closed form of a
real load of an unloaded directory. -/
theorem loadChildren_cases {fs : FileSystem} {h h1 : Heap} {self : Nat}
    (hl : FileItem.loadChildren fs h self = some h1) :
    ∃ it, h.items[self]? = some it ∧
      ((h1 = h ∧ (it.childrenLoaded = true ∨ it.fileInfo.isDir = false)) ∨
       (h1 = afterLoad fs h self it ∧ it.childrenLoaded = false ∧ it.fileInfo.isDir = true)) := by
  obtain ⟨it, hs⟩ := loadChildren_valid hl
  refine ⟨it, hs, ?_⟩
  rw [loadChildren_eq fs h self it hs] at hl
  by_cases hc : (it.childrenLoaded || !it.fileInfo.isDir) = true
  · rw [if_pos hc] at hl
    left
    refine ⟨(Option.some.inj hl).symm, ?_⟩
    cases hcl : it.childrenLoaded <;> cases hdir : it.fileInfo.isDir <;> simp_all
  · rw [if_neg hc] at hl
    right
    refine ⟨(Option.some.inj hl).symm, ?_⟩
    cases hcl : it.childrenLoaded <;> cases hdir : it.fileInfo.isDir <;> simp_all

theorem WF_loadChildren {m : FileModel} {fs : FileSystem} {h h1 : Heap} {self : Nat}
    (wf : WF m h) (hl : FileItem.loadChildren fs h self = some h1) : WF m h1 := by
  obtain ⟨it, hs, ⟨he, _⟩ | ⟨he, hcl, hdir⟩⟩ := loadChildren_cases hl
  · rw [he]; exact wf
  · rw [he]; exact WF_afterLoad fs self it wf hs hcl hdir

/-- Across `loadChildren` every object keeps its metadata and parent link, and a loaded
object is kept unchanged. -/
theorem loadChildren_keep {fs : FileSystem} {h h1 : Heap} {self : Nat}
    (hl : FileItem.loadChildren fs h self = some h1) (q : Nat) (x : FileItem)
    (hx : h.items[q]? = some x) :
    ∃ x1, h1.items[q]? = some x1 ∧ x1.parentItem = x.parentItem ∧
      x1.fileInfo = x.fileInfo ∧ (x.childrenLoaded = true → x1 = x) := by
  obtain ⟨it, hs, ⟨he, _⟩ | ⟨he, hcl, hdir⟩⟩ := loadChildren_cases hl
  · rw [he]; exact ⟨x, hx, rfl, rfl, fun _ => rfl⟩
  · rw [he]
    obtain ⟨x1, hx1, hp, hf, hsame⟩ := afterLoad_keep fs h self it hs q x hx
    refine ⟨x1, hx1, hp, hf, fun hxl => hsame ?_⟩
    intro hqs
    subst hqs
    rw [hs] at hx
    cases hx
    rw [hcl] at hxl
    cases hxl

/-- The result of `child` read off the heap that `loadChildren` leaves. -/
theorem child_inv {fs : FileSystem} {h h1 : Heap} {self : Nat} {row : Int} {r : Option Nat}
    (hc : FileItem.child fs h self row = some (h1, r)) :
    FileItem.loadChildren fs h self = some h1 ∧
      ∃ it1, h1.items[self]? = some it1 ∧
        r = if 0 ≤ row ∧ row < (it1.children.length : Int) then it1.children[row.toNat]?
            else none := by
  unfold FileItem.child at hc
  cases hl : FileItem.loadChildren fs h self with
  | none => rw [hl] at hc; cases hc
  | some h2 =>
    rw [hl] at hc
    cases hs : h2.items[self]? with
    | none => simp only [hs] at hc; cases hc
    | some it1 =>
      simp only [hs, Option.some.injEq, Prod.mk.injEq] at hc
      obtain ⟨h21, hr⟩ := hc
      subst h21
      exact ⟨rfl, it1, hs, hr.symm⟩

theorem child_of_load {fs : FileSystem} {h h1 : Heap} {self : Nat} {it1 : FileItem}
    (hl : FileItem.loadChildren fs h self = some h1) (hs : h1.items[self]? = some it1)
    (row : Int) :
    FileItem.child fs h self row =
      some (h1, if 0 ≤ row ∧ row < (it1.children.length : Int) then it1.children[row.toNat]?
                else none) := by
  simp only [FileItem.child, hl, hs]

/-- The result of `childCount` read off the heap that `loadChildren` leaves. -/
theorem childCount_inv {fs : FileSystem} {h h1 : Heap} {self : Nat} {n : Int}
    (hc : FileItem.childCount fs h self = some (h1, n)) :
    FileItem.loadChildren fs h self = some h1 ∧
      ∃ it1, h1.items[self]? = some it1 ∧ n = (it1.children.length : Int) := by
  unfold FileItem.childCount at hc
  cases hl : FileItem.loadChildren fs h self with
  | none => rw [hl] at hc; cases hc
  | some h2 =>
    rw [hl] at hc
    cases hs : h2.items[self]? with
    | none => simp only [hs] at hc; cases hc
    | some it1 =>
      simp only [hs, Option.some.injEq, Prod.mk.injEq] at hc
      obtain ⟨h21, hr⟩ := hc
      subst h21
      exact ⟨rfl, it1, hs, hr.symm⟩

theorem childCount_of_load {fs : FileSystem} {h h1 : Heap} {self : Nat} {it1 : FileItem}
    (hl : FileItem.loadChildren fs h self = some h1) (hs : h1.items[self]? = some it1) :
    FileItem.childCount fs h self = some (h1, (it1.children.length : Int)) := by
  simp only [FileItem.childCount, hl, hs]

/-- A successful `index` call: the parent address resolves to a node, whose `child` call
produced the heap and decided the address. -/
theorem index_inv {m : FileModel} {fs : FileSystem} {h h1 : Heap} {row column : Int}
    {P I : QModelIndex} (hi : m.index fs h row column P = some (h1, I)) :
    ∃ p r, m.resolve P = some p ∧ FileItem.child fs h p row = some (h1, r) ∧
      ((∃ c, r = some c ∧ I = createIndex row column c) ∨
       (r = none ∧ I = QModelIndex.invalid)) := by
  unfold FileModel.index at hi
  cases hr : m.resolve P with
  | none => rw [hr] at hi; cases hi
  | some p =>
    rw [hr] at hi
    cases hc : FileItem.child fs h p row with
    | none => simp only [hc] at hi; cases hi
    | some res =>
      obtain ⟨h2, r⟩ := res
      cases r with
      | none =>
        simp only [hc, Option.some.injEq, Prod.mk.injEq] at hi
        obtain ⟨h21, hI⟩ := hi
        subst h21
        exact ⟨p, none, rfl, hc, Or.inr ⟨rfl, hI.symm⟩⟩
      | some c =>
        simp only [hc, Option.some.injEq, Prod.mk.injEq] at hi
        obtain ⟨h21, hI⟩ := hi
        subst h21
        exact ⟨p, some c, rfl, hc, Or.inl ⟨c, rfl, hI.symm⟩⟩

theorem index_of_child_some {m : FileModel} {fs : FileSystem} {h h1 : Heap} {row : Int}
    {P : QModelIndex} {p c : Nat} (column : Int) (hr : m.resolve P = some p)
    (hc : FileItem.child fs h p row = some (h1, some c)) :
    m.index fs h row column P = some (h1, createIndex row column c) := by
  simp only [FileModel.index, hr, hc]

theorem index_of_child_none {m : FileModel} {fs : FileSystem} {h h1 : Heap} {row : Int}
    {P : QModelIndex} {p : Nat} (column : Int) (hr : m.resolve P = some p)
    (hc : FileItem.child fs h p row = some (h1, none)) :
    m.index fs h row column P = some (h1, QModelIndex.invalid) := by
  simp only [FileModel.index, hr, hc]

/-- A successful `rowCount` call is the `childCount` call on the resolved node. -/
theorem rowCount_inv {m : FileModel} {fs : FileSystem} {h h1 : Heap} {P : QModelIndex}
    {n : Int} (hi : m.rowCount fs h P = some (h1, n)) :
    ∃ p, m.resolve P = some p ∧ FileItem.childCount fs h p = some (h1, n) := by
  unfold FileModel.rowCount at hi
  cases hr : m.resolve P with
  | none => rw [hr] at hi; cases hi
  | some p => rw [hr] at hi; exact ⟨p, rfl, hi⟩

/-- Each state changing model operation is one `loadChildren` call. -/
theorem index_load {m : FileModel} {fs : FileSystem} {h h1 : Heap} {row column : Int}
    {P I : QModelIndex} (hi : m.index fs h row column P = some (h1, I)) :
    ∃ p, FileItem.loadChildren fs h p = some h1 := by
  obtain ⟨p, r, _, hc, _⟩ := index_inv hi
  exact ⟨p, (child_inv hc).1⟩

theorem rowCount_load {m : FileModel} {fs : FileSystem} {h h1 : Heap} {P : QModelIndex}
    {n : Int} (hi : m.rowCount fs h P = some (h1, n)) :
    ∃ p, FileItem.loadChildren fs h p = some h1 := by
  obtain ⟨p, _, hc⟩ := rowCount_inv hi
  exact ⟨p, (childCount_inv hc).1⟩

theorem WF_create (rootInfo : QFileInfo) :
    WF (FileModel.create rootInfo).1 (FileModel.create rootInfo).2 := by
  have key : ∀ (p : Nat) (x : FileItem),
      (FileModel.create rootInfo).2.items[p]? = some x →
      p = 0 ∧ x = FileItem.mk0 rootInfo none := by
    intro p x hx
    cases p with
    | zero =>
      simp only [FileModel.create, List.getElem?_cons_zero, Option.some.injEq] at hx
      exact ⟨rfl, hx.symm⟩
    | succ k => simp [FileModel.create] at hx
  constructor
  · exact ⟨FileItem.mk0 rootInfo none, rfl, rfl⟩
  · intro p x hx _
    exact (key p x hx).1
  · intro p x c hx hc
    rw [(key p x hx).2] at hc
    simp [FileItem.mk0] at hc
  · intro c x p hx hp
    rw [(key c x hx).2] at hp
    simp [FileItem.mk0] at hp
  · intro p x hx
    rw [(key p x hx).2]
    simp [FileItem.mk0]
  · intro p x hx _
    rw [(key p x hx).2]
    rfl
  · intro p x hx hl
    rw [(key p x hx).2] at hl
    simp [FileItem.mk0] at hl

theorem WF_steps {m : FileModel} {h h1 : Heap} (wf : WF m h) (st : Steps m h h1) :
    WF m h1 := by
  induction st with
  | refl => exact wf
  | index fs row column parent r _ hi ih =>
    obtain ⟨p, hl⟩ := index_load hi
    exact WF_loadChildren ih hl
  | rowCount fs parent n _ hi ih =>
    obtain ⟨p, hl⟩ := rowCount_load hi
    exact WF_loadChildren ih hl

theorem WF_reachable {rootInfo : QFileInfo} {m : FileModel} {h : Heap}
    (hr : Reachable rootInfo m h) : WF m h := by
  obtain ⟨hm, st⟩ := hr
  subst hm
  exact WF_steps (WF_create rootInfo) st

/-- Along any run every object keeps its metadata and parent link, and a loaded object is
kept unchanged. -/
theorem steps_keep {m : FileModel} {h h1 : Heap} (st : Steps m h h1) (q : Nat) (x : FileItem)
    (hx : h.items[q]? = some x) :
    ∃ x1, h1.items[q]? = some x1 ∧ x1.parentItem = x.parentItem ∧
      x1.fileInfo = x.fileInfo ∧ (x.childrenLoaded = true → x1 = x) := by
  induction st with
  | refl => exact ⟨x, hx, rfl, rfl, fun _ => rfl⟩
  | index fs row column parent r _ hi ih =>
    obtain ⟨x1, hx1, hp1, hf1, hs1⟩ := ih
    obtain ⟨p, hl⟩ := index_load hi
    obtain ⟨x2, hx2, hp2, hf2, hs2⟩ := loadChildren_keep hl q x1 hx1
    refine ⟨x2, hx2, hp2.trans hp1, hf2.trans hf1, fun hxl => ?_⟩
    have e1 := hs1 hxl
    subst e1
    exact hs2 hxl
  | rowCount fs parent n _ hi ih =>
    obtain ⟨x1, hx1, hp1, hf1, hs1⟩ := ih
    obtain ⟨p, hl⟩ := rowCount_load hi
    obtain ⟨x2, hx2, hp2, hf2, hs2⟩ := loadChildren_keep hl q x1 hx1
    refine ⟨x2, hx2, hp2.trans hp1, hf2.trans hf1, fun hxl => ?_⟩
    have e1 := hs1 hxl
    subst e1
    exact hs2 hxl

theorem steps_trans {m : FileModel} {h h1 h2 : Heap} (s1 : Steps m h h1) (s2 : Steps m h1 h2) :
    Steps m h h2 := by
  induction s2 with
  | refl => exact s1
  | index fs row column parent r _ hi ih => exact Steps.index fs row column parent r ih hi
  | rowCount fs parent n _ hi ih => exact Steps.rowCount fs parent n ih hi

/-! ## Calls on a valid node -/

/-- On a node that is loaded or is a file, `loadChildren` returns at once. -/
theorem loadChildren_settled (fs : FileSystem) {h : Heap} {self : Nat} {it : FileItem}
    (hs : h.items[self]? = some it)
    (hst : it.childrenLoaded = true ∨ it.fileInfo.isDir = false) :
    FileItem.loadChildren fs h self = some h := by
  rw [loadChildren_eq fs h self it hs]
  rcases hst with hl | hd
  · simp [hl]
  · simp [hd]

/-- On a valid node `loadChildren` returns, and leaves the node loaded or a file. -/
theorem loadChildren_total (fs : FileSystem) {h : Heap} {self : Nat} {it : FileItem}
    (hs : h.items[self]? = some it) :
    ∃ h1 it1, FileItem.loadChildren fs h self = some h1 ∧ h1.items[self]? = some it1 ∧
      (it1.childrenLoaded = true ∨ it1.fileInfo.isDir = false) ∧
      it1.fileInfo = it.fileInfo ∧ it1.parentItem = it.parentItem := by
  by_cases hc : (it.childrenLoaded || !it.fileInfo.isDir) = true
  · refine ⟨h, it, ?_, hs, ?_, rfl, rfl⟩
    · rw [loadChildren_eq fs h self it hs, if_pos hc]
    · cases hcl : it.childrenLoaded <;> cases hdir : it.fileInfo.isDir <;> simp_all
  · refine ⟨afterLoad fs h self it, _, ?_, afterLoad_self fs h self it hs, Or.inl rfl, rfl, rfl⟩
    rw [loadChildren_eq fs h self it hs, if_neg hc]

/-- The value of `row` on a node with a parent. -/
theorem row_eq {h : Heap} {c p : Nat} {ic ip : FileItem} (hc : h.items[c]? = some ic)
    (hp : ic.parentItem = some p) (hip : h.items[p]? = some ip) :
    FileItem.row h c = some (indexOf ip.children c) := by
  simp only [FileItem.row, hc, hp, hip]

/-- In a duplicate free list the first position of the element at position `i` is `i`. -/
theorem indexOf_at {l : List Nat} (hn : l.Nodup) {i c : Nat} (hi : l[i]? = some c) :
    indexOf l c = (i : Int) := by
  obtain ⟨hlt, hget⟩ := List.getElem?_eq_some.mp hi
  have hmem : c ∈ l := by rw [← hget]; exact List.getElem_mem hlt
  simp only [indexOf, hmem, if_true]
  rw [← hget, List.indexOf_getElem hn i hlt]

/-- The row-th child of a list, for an integer row in range. -/
theorem child_lookup (l : List Nat) (row : Int) :
    (∃ c, (if 0 ≤ row ∧ row < (l.length : Int) then l[row.toNat]? else none) = some c) ↔
      (0 ≤ row ∧ row < (l.length : Int)) := by
  constructor
  · rintro ⟨c, hc⟩
    by_cases hr : 0 ≤ row ∧ row < (l.length : Int)
    · exact hr
    · rw [if_neg hr] at hc; cases hc
  · intro hr
    rw [if_pos hr]
    have hlt : row.toNat < l.length := by omega
    exact ⟨l[row.toNat], List.getElem?_eq_getElem hlt⟩

/-- In a well-formed heap the node at position `i` of a child list has `row` equal to `i`
and that parent. -/
theorem row_of_child {m : FileModel} {h : Heap} (wf : WF m h) {p i c : Nat} {ip : FileItem}
    (hip : h.items[p]? = some ip) (hi : ip.children[i]? = some c) :
    ∃ ic, h.items[c]? = some ic ∧ ic.parentItem = some p ∧ FileItem.row h c = some (i : Int) := by
  obtain ⟨hlt, hget⟩ := List.getElem?_eq_some.mp hi
  have hmem : c ∈ ip.children := by rw [← hget]; exact List.getElem_mem hlt
  obtain ⟨ic, hic, hicp⟩ := wf.childParent p ip c hip hmem
  refine ⟨ic, hic, hicp, ?_⟩
  rw [row_eq hic hicp hip, indexOf_at (wf.nodup p ip hip) hi]

/-- In a well-formed heap a node with a parent stands in the child list of that parent,
which is loaded. -/
theorem parent_loaded {m : FileModel} {h : Heap} (wf : WF m h) {c p : Nat} {ic : FileItem}
    (hc : h.items[c]? = some ic) (hp : ic.parentItem = some p) :
    ∃ ip, h.items[p]? = some ip ∧ c ∈ ip.children ∧ ip.childrenLoaded = true := by
  obtain ⟨ip, hip, hmem⟩ := wf.parentChild c ic p hc hp
  refine ⟨ip, hip, hmem, ?_⟩
  cases hl : ip.childrenLoaded with
  | true => rfl
  | false =>
    rw [wf.unloaded p ip hip hl] at hmem
    cases hmem

/-! ## Example states are reachable -/

theorem exHeap0_reachable : Reachable exRoot exModel exHeap0 :=
  ⟨rfl, Steps.refl _⟩

theorem exHeap1_reachable : Reachable exRoot exModel exHeap1 :=
  ⟨rfl, Steps.index exFS 0 0 QModelIndex.invalid (createIndex 0 0 1) (Steps.refl _) (by rfl)⟩

theorem exHeap2_reachable : Reachable exRoot exModel exHeap2 :=
  ⟨rfl, Steps.rowCount exFS (createIndex 0 0 1) 1 exHeap1_reachable.2 (by rfl)⟩

/-! ## Properties of the tree nodes -/

/-- C2: in every state reachable from model construction, a node `c` with parent `p` has a
position in its parent (`row`), and `child` of `p` at that position returns exactly `c`, the
heap being left as it is. -/
theorem child_at_position_in_parent (rootInfo : QFileInfo) (m : FileModel) (h : Heap)
    (hr : Reachable rootInfo m h) (c p : Nat) (ic : FileItem)
    (hc : h.items[c]? = some ic) (hp : ic.parentItem = some p) :
    ∃ r, FileItem.row h c = some r ∧
      ∀ fs : FileSystem, FileItem.child fs h p r = some (h, some c) := by
  have wf := WF_reachable hr
  obtain ⟨ip, hip, hmem, hl⟩ := parent_loaded wf hc hp
  refine ⟨indexOf ip.children c, row_eq hc hp hip, fun fs => ?_⟩
  rw [child_of_load (loadChildren_settled fs hip (Or.inl hl)) hip]
  have hlt : List.indexOf c ip.children < ip.children.length := List.indexOf_lt_length.mpr hmem
  have hget : ip.children[List.indexOf c ip.children]? = some c := by
    rw [List.getElem?_eq_getElem hlt, List.getElem_indexOf hlt]
  simp only [indexOf, hmem, if_true]
  rw [if_pos ⟨by omega, by omega⟩]
  simp [hget]

/-- Instance on the example: `b.txt` (object 2) under the loaded root. -/
theorem child_at_position_in_parent_witness :
    Reachable exRoot exModel exHeap1 ∧
      ∃ r, FileItem.row exHeap1 2 = some r ∧
        ∀ fs : FileSystem, FileItem.child fs exHeap1 0 r = some (exHeap1, some 2) :=
  ⟨exHeap1_reachable,
    child_at_position_in_parent exRoot exModel exHeap1 exHeap1_reachable 2 0
      (FileItem.mk (exFile "/r" "b.txt" "txt" 12) (some 0) [] false) (by rfl) (by rfl)⟩

/-- C3: on every node, two successive `childCount` calls (whatever the filesystem at each
call) return the same value; the second call leaves the heap and the listing log as they are,
the first adds at most one listing to the log, and none when the node was already loaded. -/
theorem childCount_twice (fs1 fs2 : FileSystem) (h : Heap) (p : Nat) (it : FileItem)
    (hs : h.items[p]? = some it) :
    ∃ h1 n, FileItem.childCount fs1 h p = some (h1, n) ∧
      FileItem.childCount fs2 h1 p = some (h1, n) ∧
      (h1.listed = h.listed ∨ h1.listed = it.fileInfo.absoluteFilePath :: h.listed) ∧
      h1.listed.length ≤ h.listed.length + 1 ∧
      (it.childrenLoaded = true → h1.listed = h.listed) := by
  obtain ⟨h1, it1, hl, hs1, hst, _, _⟩ := loadChildren_total fs1 hs
  refine ⟨h1, (it1.children.length : Int), childCount_of_load hl hs1,
    childCount_of_load (loadChildren_settled fs2 hs1 hst) hs1, ?_⟩
  obtain ⟨it0, hs0, ⟨he, _⟩ | ⟨he, hcl, _⟩⟩ := loadChildren_cases hl
  · subst he
    exact ⟨Or.inl rfl, Nat.le_succ _, fun _ => rfl⟩
  · rw [hs] at hs0
    cases hs0
    subst he
    refine ⟨Or.inr rfl, by simp [afterLoad], fun hcl1 => ?_⟩
    rw [hcl] at hcl1
    cases hcl1

/-- Instance on the example: the unloaded root is listed once, then counted again on a
filesystem that lists nothing. -/
theorem childCount_twice_witness :
    exHeap0.items[0]? = some (FileItem.mk0 exRoot none) ∧
      ∃ h1 n, FileItem.childCount exFS exHeap0 0 = some (h1, n) ∧
        FileItem.childCount (fun _ => none) h1 0 = some (h1, n) ∧
        (h1.listed = exHeap0.listed ∨
          h1.listed = (FileItem.mk0 exRoot none).fileInfo.absoluteFilePath :: exHeap0.listed) ∧
        h1.listed.length ≤ exHeap0.listed.length + 1 ∧
        ((FileItem.mk0 exRoot none).childrenLoaded = true → h1.listed = exHeap0.listed) :=
  ⟨by rfl, childCount_twice exFS (fun _ => none) exHeap0 0 (FileItem.mk0 exRoot none) (by rfl)⟩

/-- C4: in every reachable state, on a node that denotes a file `childCount` returns 0 and
`child` returns the absent result for every row, and both leave the heap, and with it the log
of listings, as it is: the listing primitive is not invoked. -/
theorem file_node_has_no_children (rootInfo : QFileInfo) (m : FileModel) (h : Heap)
    (hr : Reachable rootInfo m h) (p : Nat) (it : FileItem) (hs : h.items[p]? = some it)
    (hf : it.fileInfo.isDir = false) (fs : FileSystem) :
    FileItem.childCount fs h p = some (h, 0) ∧
      ∀ row : Int, FileItem.child fs h p row = some (h, none) := by
  have wf := WF_reachable hr
  have hcl : it.childrenLoaded = false := by
    cases hl : it.childrenLoaded with
    | false => rfl
    | true =>
      rw [wf.loadedDir p it hs hl] at hf
      cases hf
  have hch : it.children = [] := wf.unloaded p it hs hcl
  have hload := loadChildren_settled fs hs (Or.inr hf)
  constructor
  · rw [childCount_of_load hload hs, hch]
    rfl
  · intro row
    rw [child_of_load hload hs, hch]
    simp

/-- Instance on the example: the file `b.txt` (object 2). -/
theorem file_node_has_no_children_witness :
    Reachable exRoot exModel exHeap1 ∧
      (FileItem.childCount exFS exHeap1 2 = some (exHeap1, 0) ∧
        ∀ row : Int, FileItem.child exFS exHeap1 2 row = some (exHeap1, none)) :=
  ⟨exHeap1_reachable,
    file_node_has_no_children exRoot exModel exHeap1 exHeap1_reachable 2
      (FileItem.mk (exFile "/r" "b.txt" "txt" 12) (some 0) [] false) (by rfl) (by rfl) exFS⟩

/-- C6: on every node and for every integer row, negative ones included, `child` returns
without a fault; its result is a present child exactly when `0 ≤ row < childCount()`, and the
absent result otherwise (so `child(5)` on a node with 3 children is absent).  The count is the
one `childCount` returns from the same state, and both calls repeat with the same results
afterwards. -/
theorem child_never_faults (fs : FileSystem) (h : Heap) (p : Nat) (it : FileItem)
    (hs : h.items[p]? = some it) (row : Int) :
    ∃ h1 r n, FileItem.child fs h p row = some (h1, r) ∧
      FileItem.childCount fs h p = some (h1, n) ∧
      ((∃ c, r = some c) ↔ (0 ≤ row ∧ row < n)) ∧
      (r = none ↔ ¬ (0 ≤ row ∧ row < n)) ∧
      ∀ fs1 : FileSystem, FileItem.child fs1 h1 p row = some (h1, r) ∧
        FileItem.childCount fs1 h1 p = some (h1, n) := by
  obtain ⟨h1, it1, hl, hs1, hst, _, _⟩ := loadChildren_total fs hs
  have hiff := child_lookup it1.children row
  refine ⟨h1, _, (it1.children.length : Int), child_of_load hl hs1 row,
    childCount_of_load hl hs1, hiff, ?_, fun fs1 => ?_⟩
  · rw [← not_iff_not.mpr hiff]
    generalize (if 0 ≤ row ∧ row < (it1.children.length : Int) then it1.children[row.toNat]?
      else none) = r
    cases r with
    | none => simp
    | some c => simp
  · exact ⟨child_of_load (loadChildren_settled fs1 hs1 hst) hs1 row,
      childCount_of_load (loadChildren_settled fs1 hs1 hst) hs1⟩

/-- Instance on the example: row 5 of the root, which has 3 children. -/
theorem child_never_faults_witness :
    exHeap0.items[0]? = some (FileItem.mk0 exRoot none) ∧
      ∃ h1 r n, FileItem.child exFS exHeap0 0 5 = some (h1, r) ∧
        FileItem.childCount exFS exHeap0 0 = some (h1, n) ∧
        ((∃ c, r = some c) ↔ ((0 : Int) ≤ 5 ∧ 5 < n)) ∧
        (r = none ↔ ¬ ((0 : Int) ≤ 5 ∧ 5 < n)) ∧
        ∀ fs1 : FileSystem, FileItem.child fs1 h1 0 5 = some (h1, r) ∧
          FileItem.childCount fs1 h1 0 = some (h1, n) :=
  ⟨by rfl, child_never_faults exFS exHeap0 0 (FileItem.mk0 exRoot none) (by rfl) 5⟩

/-- Scenario: the root of the examples has 3 children, and `child(5)` and
`child(-1)` are absent while `child(2)` is present. -/
theorem child_scenario :
    FileItem.childCount exFS exHeap1 0 = some (exHeap1, 3) ∧
      FileItem.child exFS exHeap1 0 5 = some (exHeap1, none) ∧
      FileItem.child exFS exHeap1 0 (-1) = some (exHeap1, none) ∧
      FileItem.child exFS exHeap1 0 2 = some (exHeap1, some 3) := by
  refine ⟨by rfl, by rfl, by rfl, by rfl⟩

/-! ## Address translation -/

/-- The sentinel resolves to the root. -/
theorem resolve_invalid (m : FileModel) : m.resolve QModelIndex.invalid = some m.rootItem := by
  rfl

/-- An address made by `createIndex` with non-negative row and column resolves to its
node. -/
theorem resolve_createIndex (m : FileModel) {row column : Int} (k : Nat) (hr : 0 ≤ row)
    (hc : 0 ≤ column) : m.resolve (createIndex row column k) = some k := by
  simp [FileModel.resolve, QModelIndex.isValid, createIndex, hr, hc]

theorem isValid_createIndex {row column : Int} (k : Nat) (hr : 0 ≤ row) (hc : 0 ≤ column) :
    (createIndex row column k).isValid = true := by
  simp [QModelIndex.isValid, createIndex, hr, hc]

/-- The value of `parent` on the address of a node `k` whose parent link is `p`. -/
theorem parent_eval (m : FileModel) {h : Heap} {k p : Nat} {ik : FileItem} {row column : Int}
    (hk : h.items[k]? = some ik) (hp : ik.parentItem = some p) (hr : 0 ≤ row)
    (hc : 0 ≤ column) :
    m.parent h (createIndex row column k) =
      if p = m.rootItem then some QModelIndex.invalid
      else match FileItem.row h p with
        | none => none
        | some r => some (createIndex r 0 p) := by
  have hv := isValid_createIndex k hr hc
  simp only [FileModel.parent, hv, FileItem.parent]
  simp only [createIndex, hk, hp]
  rfl

/-- On a parent address that resolves to a valid node, `rowCount` returns, and afterwards
`index` returns, for every row below the count, the address of a node whose parent link is
the resolved node, the heap being left as it is. -/
theorem rowCount_then_index {m : FileModel} {h : Heap} (wf : WF m h) (fs : FileSystem)
    {P : QModelIndex} {p : Nat} {it : FileItem} (hres : m.resolve P = some p)
    (hs : h.items[p]? = some it) :
    ∃ h1 it1, FileItem.loadChildren fs h p = some h1 ∧ h1.items[p]? = some it1 ∧ WF m h1 ∧
      m.rowCount fs h P = some (h1, (it1.children.length : Int)) ∧
      ∀ (fs1 : FileSystem) (row column : Int), 0 ≤ row → row < (it1.children.length : Int) →
        ∃ k ik, m.index fs1 h1 row column P = some (h1, createIndex row column k) ∧
          h1.items[k]? = some ik ∧ ik.parentItem = some p := by
  obtain ⟨h1, it1, hl, hs1, hst, _, _⟩ := loadChildren_total fs hs
  have wf1 : WF m h1 := WF_loadChildren wf hl
  refine ⟨h1, it1, hl, hs1, wf1, ?_, ?_⟩
  · simp only [FileModel.rowCount, hres]
    exact childCount_of_load hl hs1
  · intro fs1 row column h0 hlt
    have hlt1 : row.toNat < it1.children.length := by omega
    have hget : it1.children[row.toNat]? = some it1.children[row.toNat] :=
      List.getElem?_eq_getElem hlt1
    obtain ⟨ik, hik, hikp, _⟩ := row_of_child wf1 hs1 hget
    refine ⟨it1.children[row.toNat], ik, ?_, hik, hikp⟩
    have hc := child_of_load (loadChildren_settled fs1 hs1 hst) hs1 row
    rw [if_pos ⟨h0, hlt⟩, hget] at hc
    exact index_of_child_some column hres hc

/-- Counterexample to the round trip over all issued addresses: the address `P` that
`index(0, 1, sentinel)` returns for `a_dir` carries column 1; `P` has one row, and the parent
of `index(0, 0, P)` is the address of `a_dir` with column 0, which is not `P`. -/
theorem parent_of_index_counterexample :
    exModel.index exFS exHeap0 0 1 QModelIndex.invalid = some (exHeap1, createIndex 0 1 1) ∧
      exModel.rowCount exFS exHeap1 (createIndex 0 1 1) = some (exHeap2, 1) ∧
      exModel.index exFS exHeap2 0 0 (createIndex 0 1 1) = some (exHeap2, createIndex 0 0 4) ∧
      exModel.parent exHeap2 (createIndex 0 0 4) = some (createIndex 0 0 1) ∧
      createIndex 0 0 1 ≠ createIndex 0 1 1 := by
  refine ⟨by rfl, by rfl, by rfl, by rfl, by decide⟩

/-- C1, amended: in every reachable state, for every parent address `P` that is the
"no parent" sentinel or was returned earlier by `index` called with column 0, `rowCount(P)`
returns, and for every row with `0 ≤ row < rowCount(P)` the call `index(row, 0, P)` returns a
valid address whose `parent` is `P` itself (same row, column and node). -/
theorem parent_of_index (rootInfo : QFileInfo) (m : FileModel) (h : Heap)
    (hr : Reachable rootInfo m h) (P : QModelIndex)
    (hP : P = QModelIndex.invalid ∨
      ∃ (h0 hb : Heap) (fs0 : FileSystem) (row0 : Int) (P0 : QModelIndex),
        Reachable rootInfo m h0 ∧ m.index fs0 h0 row0 0 P0 = some (hb, P) ∧ Steps m hb h)
    (fs : FileSystem) :
    ∃ h1 n, m.rowCount fs h P = some (h1, n) ∧
      ∀ (fs1 : FileSystem) (row : Int), 0 ≤ row → row < n →
        ∃ I, m.index fs1 h1 row 0 P = some (h1, I) ∧ I.isValid = true ∧
          m.parent h1 I = some P := by
  have wf := WF_reachable hr
  have top : P = QModelIndex.invalid →
      ∃ h1 n, m.rowCount fs h P = some (h1, n) ∧
        ∀ (fs1 : FileSystem) (row : Int), 0 ≤ row → row < n →
          ∃ I, m.index fs1 h1 row 0 P = some (h1, I) ∧ I.isValid = true ∧
            m.parent h1 I = some P := by
    intro hinv
    subst hinv
    obtain ⟨rt, hrt, _⟩ := wf.root
    obtain ⟨h1, it1, _, _, _, hcount, hidx⟩ :=
      rowCount_then_index wf fs (resolve_invalid m) hrt
    refine ⟨h1, _, hcount, fun fs1 row h0 hlt => ?_⟩
    obtain ⟨k, ik, hi, hik, hikp⟩ := hidx fs1 row 0 h0 hlt
    refine ⟨_, hi, isValid_createIndex k h0 (le_refl 0), ?_⟩
    rw [parent_eval m hik hikp h0 (le_refl 0), if_pos rfl]
  rcases hP with hinv | ⟨h0, hb, fs0, row0, P0, hr0, hidx0, st⟩
  · exact top hinv
  · obtain ⟨p0, r, _, hch, ⟨c, hrc, hPc⟩ | ⟨_, hPinv⟩⟩ := index_inv hidx0
    · obtain ⟨hl0, ip, hip, hr_eq⟩ := child_inv hch
      have wfb : WF m hb := WF_loadChildren (WF_reachable hr0) hl0
      rw [hrc] at hr_eq
      have hrange : 0 ≤ row0 ∧ row0 < (ip.children.length : Int) := by
        by_contra hn
        rw [if_neg hn] at hr_eq
        cases hr_eq
      rw [if_pos hrange] at hr_eq
      obtain ⟨ic, hic, hicp, _⟩ := row_of_child wfb hip hr_eq.symm
      obtain ⟨ip1, hip1, hmem, hipl⟩ := parent_loaded wfb hic hicp
      rw [hip] at hip1
      cases hip1
      have hidx : indexOf ip.children c = row0 := by
        rw [indexOf_at (wfb.nodup p0 ip hip) hr_eq.symm]
        omega
      -- transport to the current heap
      obtain ⟨ipc, hipc, _, _, hsame⟩ := steps_keep st p0 ip hip
      rw [hsame hipl] at hipc
      obtain ⟨icc, hicc, hiccp, _, _⟩ := steps_keep st c ic hic
      have hres : m.resolve P = some c := by
        rw [hPc]; exact resolve_createIndex m c hrange.1 (le_refl 0)
      obtain ⟨h1, it1, hl1, hs1, wf1, hcount, hindex⟩ := rowCount_then_index wf fs hres hicc
      obtain ⟨ip2, hip2, _, _, hsame2⟩ := loadChildren_keep hl1 p0 ip hipc
      rw [hsame2 hipl] at hip2
      obtain ⟨ic2, hic2, hic2p, _, _⟩ := loadChildren_keep hl1 c icc hicc
      have hcp : ic2.parentItem = some p0 := by rw [hic2p, hiccp, hicp]
      have hrow : FileItem.row h1 c = some row0 := by
        rw [row_eq hic2 hcp hip2, hidx]
      have hne : c ≠ m.rootItem := by
        intro hcr
        obtain ⟨rt, hrt, hrtp⟩ := wf1.root
        rw [← hcr, hic2] at hrt
        cases hrt
        rw [hcp] at hrtp
        cases hrtp
      refine ⟨h1, _, hcount, fun fs1 row h0' hlt => ?_⟩
      obtain ⟨k, ik, hi, hik, hikp⟩ := hindex fs1 row 0 h0' hlt
      refine ⟨_, hi, isValid_createIndex k h0' (le_refl 0), ?_⟩
      rw [parent_eval m hik hikp h0' (le_refl 0), if_neg hne, hrow, hPc]
    · exact top hPinv

/-- Instance on the example: the address of `a_dir` issued with column 0. -/
theorem parent_of_index_witness :
    (Reachable exRoot exModel exHeap1 ∧
      (createIndex 0 0 1 = QModelIndex.invalid ∨
        ∃ (h0 hb : Heap) (fs0 : FileSystem) (row0 : Int) (P0 : QModelIndex),
          Reachable exRoot exModel h0 ∧
            exModel.index fs0 h0 row0 0 P0 = some (hb, createIndex 0 0 1) ∧
            Steps exModel hb exHeap1)) ∧
      ∃ h1 n, exModel.rowCount exFS exHeap1 (createIndex 0 0 1) = some (h1, n) ∧
        ∀ (fs1 : FileSystem) (row : Int), 0 ≤ row → row < n →
          ∃ I, exModel.index fs1 h1 row 0 (createIndex 0 0 1) = some (h1, I) ∧
            I.isValid = true ∧ exModel.parent h1 I = some (createIndex 0 0 1) :=
  ⟨⟨exHeap1_reachable,
      Or.inr ⟨exHeap0, exHeap1, exFS, 0, QModelIndex.invalid, exHeap0_reachable, by rfl,
        Steps.refl _⟩⟩,
    parent_of_index exRoot exModel exHeap1 exHeap1_reachable (createIndex 0 0 1)
      (Or.inr ⟨exHeap0, exHeap1, exFS, 0, QModelIndex.invalid, exHeap0_reachable, by rfl,
        Steps.refl _⟩) exFS⟩

/-- Counterexample to column independence of addresses: on the top level,
`index(0, 0, sentinel)` and `index(0, 1, sentinel)` return different addresses: the column
argument is stored in the address. -/
theorem index_column_counterexample :
    exModel.index exFS exHeap0 0 0 QModelIndex.invalid = some (exHeap1, createIndex 0 0 1) ∧
      exModel.index exFS exHeap0 0 1 QModelIndex.invalid = some (exHeap1, createIndex 0 1 1) ∧
      createIndex 0 0 1 ≠ createIndex 0 1 1 := by
  refine ⟨by rfl, by rfl, by decide⟩

/-- C9, amended: the column argument of `index` does not influence the node found nor the
state left.  For every parent address that resolves to a node, every row and every two
columns `c1` and `c2`, the two calls leave the same heap, and either both return the invalid
sentinel, or they return `createIndex(row, c1, k)` and `createIndex(row, c2, k)` for the same
node `k`: the same row and node, with the column argument stored as the column of the
address. -/
theorem index_column (m : FileModel) (fs : FileSystem) (h : Heap) (row c1 c2 : Int)
    (P : QModelIndex) (p : Nat) (it : FileItem) (hres : m.resolve P = some p)
    (hs : h.items[p]? = some it) :
    ∃ h1, (m.index fs h row c1 P = some (h1, QModelIndex.invalid) ∧
          m.index fs h row c2 P = some (h1, QModelIndex.invalid)) ∨
      ∃ k, m.index fs h row c1 P = some (h1, createIndex row c1 k) ∧
        m.index fs h row c2 P = some (h1, createIndex row c2 k) ∧
        (createIndex row c1 k = createIndex row c2 k ↔ c1 = c2) := by
  obtain ⟨h1, it1, hl, hs1, _, _, _⟩ := loadChildren_total fs hs
  have hc := child_of_load hl hs1 row
  refine ⟨h1, ?_⟩
  generalize (if 0 ≤ row ∧ row < (it1.children.length : Int) then it1.children[row.toNat]?
    else none) = r at hc
  cases r with
  | none => exact Or.inl ⟨index_of_child_none c1 hres hc, index_of_child_none c2 hres hc⟩
  | some k =>
    refine Or.inr ⟨k, index_of_child_some c1 hres hc, index_of_child_some c2 hres hc, ?_⟩
    simp [createIndex]

/-- Instance on the example: columns 0 and 7 at row 2 of the top level. -/
theorem index_column_witness :
    (exModel.resolve QModelIndex.invalid = some 0 ∧
      exHeap0.items[0]? = some (FileItem.mk0 exRoot none)) ∧
      ∃ h1, (exModel.index exFS exHeap0 2 0 QModelIndex.invalid = some (h1, QModelIndex.invalid) ∧
            exModel.index exFS exHeap0 2 7 QModelIndex.invalid = some (h1, QModelIndex.invalid)) ∨
        ∃ k, exModel.index exFS exHeap0 2 0 QModelIndex.invalid = some (h1, createIndex 2 0 k) ∧
          exModel.index exFS exHeap0 2 7 QModelIndex.invalid = some (h1, createIndex 2 7 k) ∧
          (createIndex 2 0 k = createIndex 2 7 k ↔ (0 : Int) = 7) :=
  ⟨⟨by rfl, by rfl⟩,
    index_column exModel exFS exHeap0 2 0 7 QModelIndex.invalid 0 (FileItem.mk0 exRoot none)
      (by rfl) (by rfl)⟩

/-- C10: in every reachable state no address returned by `index`, for any row, column and
parent address, and no address returned by `parent` refers to the root node. -/
theorem root_never_addressed (rootInfo : QFileInfo) (m : FileModel) (h : Heap)
    (hr : Reachable rootInfo m h) :
    (∀ (fs : FileSystem) (row column : Int) (P : QModelIndex) (h1 : Heap) (I : QModelIndex),
        m.index fs h row column P = some (h1, I) → I.internalPointer ≠ some m.rootItem) ∧
      (∀ idx I : QModelIndex, m.parent h idx = some I →
        I.internalPointer ≠ some m.rootItem) := by
  have wf := WF_reachable hr
  constructor
  · intro fs row column P h1 I hi
    obtain ⟨p, r, _, hch, ⟨c, hrc, hI⟩ | ⟨_, hI⟩⟩ := index_inv hi
    · obtain ⟨hl, it1, hs1, hr_eq⟩ := child_inv hch
      have wf1 : WF m h1 := WF_loadChildren wf hl
      rw [hrc] at hr_eq
      have hrange : 0 ≤ row ∧ row < (it1.children.length : Int) := by
        by_contra hn
        rw [if_neg hn] at hr_eq
        cases hr_eq
      rw [if_pos hrange] at hr_eq
      obtain ⟨ic, hic, hicp, _⟩ := row_of_child wf1 hs1 hr_eq.symm
      obtain ⟨rt, hrt, hrtp⟩ := wf1.root
      rw [hI]
      intro heq
      simp only [createIndex, Option.some.injEq] at heq
      rw [heq, hrt] at hic
      cases hic
      rw [hicp] at hrtp
      cases hrtp
    · rw [hI]
      simp [QModelIndex.invalid]
  · intro idx I hpar
    unfold FileModel.parent at hpar
    split at hpar
    · cases hpar; simp [QModelIndex.invalid]
    · split at hpar
      · cases hpar
      · split at hpar
        · cases hpar
        · cases hpar; simp [QModelIndex.invalid]
        · split at hpar
          · cases hpar; simp [QModelIndex.invalid]
          · split at hpar
            · cases hpar
            · cases hpar
              simp only [createIndex, ne_eq, Option.some.injEq]
              assumption

/-- Instance on the example: the state with the root and `a_dir` loaded. -/
theorem root_never_addressed_witness :
    Reachable exRoot exModel exHeap2 ∧
      ((∀ (fs : FileSystem) (row column : Int) (P : QModelIndex) (h1 : Heap) (I : QModelIndex),
          exModel.index fs exHeap2 row column P = some (h1, I) →
          I.internalPointer ≠ some exModel.rootItem) ∧
        (∀ idx I : QModelIndex, exModel.parent exHeap2 idx = some I →
          I.internalPointer ≠ some exModel.rootItem)) :=
  ⟨exHeap2_reachable, root_never_addressed exRoot exModel exHeap2 exHeap2_reachable⟩

/-! ## The name order -/

theorem QString.lt_asymm : ∀ a b : List Char, QString.lt a b = true → QString.lt b a = false
  | [], [], h => by simp [QString.lt] at h
  | [], _ :: _, _ => by simp [QString.lt]
  | _ :: _, [], h => by simp [QString.lt] at h
  | a :: as, b :: bs, h => by
    unfold QString.lt at h ⊢
    by_cases h1 : a.toNat < b.toNat
    · have h2 : ¬ b.toNat < a.toNat := by omega
      simp [h1, h2]
    · by_cases h2 : b.toNat < a.toNat
      · simp [h1, h2] at h
      · simp only [h1, h2, if_false] at h ⊢
        exact QString.lt_asymm as bs h

theorem QString.lt_cotrans : ∀ a b c : List Char, QString.lt a c = true →
    QString.lt a b = true ∨ QString.lt b c = true
  | [], _, [], h => by simp [QString.lt] at h
  | [], [], _ :: _, h => Or.inr h
  | [], _ :: _, _ :: _, _ => Or.inl (by simp [QString.lt])
  | _ :: _, _, [], h => by simp [QString.lt] at h
  | _ :: _, [], _ :: _, _ => Or.inr (by simp [QString.lt])
  | a :: as, b :: bs, c :: cs, h => by
    unfold QString.lt at h ⊢
    by_cases hab : a.toNat < b.toNat
    · left; simp [hab]
    · by_cases hbc : b.toNat < c.toNat
      · right; simp [hbc]
      · by_cases hba : b.toNat < a.toNat
        · have hac : ¬ a.toNat < c.toNat := by omega
          have hca : c.toNat < a.toNat := by omega
          simp [hac, hca] at h
        · by_cases hcb : c.toNat < b.toNat
          · have hac : ¬ a.toNat < c.toNat := by omega
            have hca : c.toNat < a.toNat := by omega
            simp [hac, hca] at h
          · have hac : ¬ a.toNat < c.toNat := by omega
            have hca : ¬ c.toNat < a.toNat := by omega
            simp only [hab, hba, hbc, hcb, hac, hca, if_false] at h ⊢
            exact QString.lt_cotrans as bs cs h

theorem char_eq_of_toNat_eq {a b : Char} (h : a.toNat = b.toNat) : a = b := by
  apply Char.ext
  apply UInt32.ext
  exact h

theorem QString.lt_connex : ∀ a b : List Char, QString.lt a b = false →
    QString.lt b a = false → a = b
  | [], [], _, _ => rfl
  | [], _ :: _, h, _ => by simp [QString.lt] at h
  | _ :: _, [], _, h => by simp [QString.lt] at h
  | a :: as, b :: bs, h1, h2 => by
    unfold QString.lt at h1 h2
    by_cases hab : a.toNat < b.toNat
    · simp [hab] at h1
    · by_cases hba : b.toNat < a.toNat
      · simp [hba] at h2
      · simp only [hab, hba, if_false] at h1 h2
        have e1 : a = b := char_eq_of_toNat_eq (by omega)
        have e2 : as = bs := QString.lt_connex as bs h1 h2
        rw [e1, e2]

/-- The comparison is the lexicographic order of the character lists. -/
theorem QString.lt_iff_lex : ∀ a b : List Char,
    QString.lt a b = true ↔ List.Lex (fun x y : Char => x < y) a b
  | [], [] => by
    simp only [QString.lt]
    constructor
    · intro h; cases h
    · intro h; cases h
  | [], _ :: _ => by
    simp only [QString.lt]
    exact ⟨fun _ => List.Lex.nil, fun _ => trivial⟩
  | _ :: _, [] => by
    simp only [QString.lt]
    constructor
    · intro h; cases h
    · intro h; cases h
  | a :: as, b :: bs => by
    unfold QString.lt
    by_cases hab : a.toNat < b.toNat
    · simp only [hab, if_true, true_iff]
      exact List.Lex.rel hab
    · by_cases hba : b.toNat < a.toNat
      · simp only [hab, hba, if_true, if_false]
        constructor
        · intro h; cases h
        · intro h
          cases h with
          | cons _ => omega
          | rel h1 => exact absurd h1 hab
      · simp only [hab, hba, if_false]
        have e : a = b := char_eq_of_toNat_eq (by omega)
        subst e
        rw [QString.lt_iff_lex as bs]
        exact List.Lex.cons_iff.symm

/-- The comparison decides the standard strict order of `String`. -/
theorem QString.lt_iff_lt (a b : String) : QString.lt a.data b.data = true ↔ a < b := by
  rw [QString.lt_iff_lex, String.lt_iff_toList_lt]
  exact Iff.rfl

instance : IsTotal QFileInfo nameLE :=
  ⟨fun a b => by
    unfold nameLE
    cases hba : QString.lt b.fileName.data a.fileName.data with
    | false => exact Or.inl rfl
    | true => exact Or.inr (QString.lt_asymm _ _ hba)⟩

instance : IsTrans QFileInfo nameLE :=
  ⟨fun a b c hab hbc => by
    unfold nameLE at hab hbc ⊢
    cases hca : QString.lt c.fileName.data a.fileName.data with
    | false => rfl
    | true =>
      rcases QString.lt_cotrans _ b.fileName.data _ hca with h | h
      · rw [h] at hbc; cases hbc
      · rw [h] at hab; cases hab⟩

/-- The listing is ascending by name. -/
theorem entryInfoList_sorted (fs : FileSystem) (path : String) :
    (entryInfoList fs path).Sorted nameLE := by
  unfold entryInfoList
  cases fs path with
  | none => exact List.sorted_nil
  | some es => exact List.sorted_insertionSort nameLE _

/-- The listing holds exactly the entries of the directory other than "." and "..". -/
theorem entryInfoList_perm {fs : FileSystem} {path : String} {raw : List QFileInfo}
    (hraw : fs path = some raw) :
    (entryInfoList fs path).Perm (raw.filter noDotAndDotDot) := by
  simp only [entryInfoList, hraw]
  exact List.perm_insertionSort nameLE _

/-- A failed enumeration lists nothing. -/
theorem entryInfoList_fail {fs : FileSystem} {path : String} (hfail : fs path = none) :
    entryInfoList fs path = [] := by
  simp only [entryInfoList, hfail]

/-- When the names in the directory are pairwise distinct, the listing is strictly ascending
by name. -/
theorem entryInfoList_strict {fs : FileSystem} {path : String} {raw : List QFileInfo}
    (hraw : fs path = some raw) (hnd : (raw.map (fun e => e.fileName)).Nodup) :
    (entryInfoList fs path).Sorted nameLT := by
  have hperm := entryInfoList_perm hraw
  have hnd1 : ((raw.filter noDotAndDotDot).map (fun e => e.fileName)).Nodup :=
    List.Nodup.sublist (List.Sublist.map _ (List.filter_sublist raw)) hnd
  have hnd2 : ((entryInfoList fs path).map (fun e => e.fileName)).Nodup :=
    (List.Perm.nodup_iff (List.Perm.map _ hperm)).mpr hnd1
  have hne : (entryInfoList fs path).Pairwise (fun a b => a.fileName ≠ b.fileName) := by
    rw [List.Nodup, List.pairwise_map] at hnd2
    exact hnd2
  have hboth := List.Pairwise.and (entryInfoList_sorted fs path) hne
  refine List.Pairwise.imp ?_ hboth
  intro a b hab
  obtain ⟨hle, hneq⟩ := hab
  unfold nameLE at hle
  unfold nameLT
  cases hlt : QString.lt a.fileName.data b.fileName.data with
  | true => rfl
  | false =>
    exfalso
    apply hneq
    have := QString.lt_connex _ _ hlt hle
    exact String.ext this

/-- When the names in the directory are pairwise distinct, the names of the listing are
strictly ascending in the standard order of `String`. -/
theorem entryInfoList_names_strict {fs : FileSystem} {path : String} {raw : List QFileInfo}
    (hraw : fs path = some raw) (hnd : (raw.map (fun e => e.fileName)).Nodup) :
    ((entryInfoList fs path).map (fun e => e.fileName)).Sorted (fun a b => a < b) := by
  rw [List.Sorted, List.pairwise_map]
  refine List.Pairwise.imp ?_ (entryInfoList_strict hraw hnd)
  intro a b hab
  exact (QString.lt_iff_lt a.fileName b.fileName).mp hab

/-- After a real load of an unloaded directory node of a well-formed heap, the children are
the fresh objects of the listing, in the order of the listing. -/
theorem afterLoad_children {m : FileModel} {h : Heap} (wf : WF m h) (fs : FileSystem)
    {p : Nat} {it : FileItem} (hs : h.items[p]? = some it) (hd : it.fileInfo.isDir = true)
    (hl : it.childrenLoaded = false) :
    ∃ h1 it1, FileItem.loadChildren fs h p = some h1 ∧ h1.items[p]? = some it1 ∧
      it1.childrenLoaded = true ∧
      h1.listed = it.fileInfo.absoluteFilePath :: h.listed ∧
      it1.children.length = (entryInfoList fs it.fileInfo.absoluteFilePath).length ∧
      ∀ i : Nat, i < (entryInfoList fs it.fileInfo.absoluteFilePath).length →
        ∃ c ic, it1.children[i]? = some c ∧ h1.items[c]? = some ic ∧
          (entryInfoList fs it.fileInfo.absoluteFilePath)[i]? = some ic.fileInfo := by
  have hch : it.children = [] := wf.unloaded p it hs hl
  have hload : FileItem.loadChildren fs h p = some (afterLoad fs h p it) := by
    rw [loadChildren_eq fs h p it hs]
    simp [hl, hd]
  refine ⟨_, _, hload, afterLoad_self fs h p it hs, rfl, rfl, ?_, ?_⟩
  · simp [hch]
  · intro i hi
    obtain ⟨e, he, hf⟩ := afterLoad_fresh fs h p it i hi
    refine ⟨h.items.length + i, _, ?_, hf, ?_⟩
    · simp only [hch, List.nil_append]
      rw [List.getElem?_range' _ _ hi, Nat.one_mul]
    · rw [he]; rfl

/-- C5: when an unloaded directory node of a reachable state is loaded against a filesystem
on which its directory lists as `raw` (names pairwise distinct), `childCount` returns the
length of a sequence `infos` such that `child(i)` is the node carrying `infos[i]` for every
`i` below the count, the names of `infos` are strictly ascending (in the order of `String`,
which `QString.lt` decides), and `infos` is a rearrangement of exactly the entries of `raw`
other than "." and "..". -/
theorem children_sorted_by_name (rootInfo : QFileInfo) (m : FileModel) (h : Heap)
    (hr : Reachable rootInfo m h) (p : Nat) (it : FileItem) (hs : h.items[p]? = some it)
    (hd : it.fileInfo.isDir = true) (hl : it.childrenLoaded = false) (fs : FileSystem)
    (raw : List QFileInfo) (hraw : fs it.fileInfo.absoluteFilePath = some raw)
    (hnd : (raw.map (fun e => e.fileName)).Nodup) :
    ∃ (h1 : Heap) (infos : List QFileInfo),
      FileItem.childCount fs h p = some (h1, (infos.length : Int)) ∧
      (∀ (fs1 : FileSystem) (i : Nat), i < infos.length →
        ∃ c ic, FileItem.child fs1 h1 p (i : Int) = some (h1, some c) ∧
          h1.items[c]? = some ic ∧ infos[i]? = some ic.fileInfo) ∧
      (infos.map (fun e => e.fileName)).Sorted (fun a b => a < b) ∧
      infos.Perm (raw.filter noDotAndDotDot) := by
  have wf := WF_reachable hr
  obtain ⟨h1, it1, hload, hs1, hl1, _, hlen, hkids⟩ := afterLoad_children wf fs hs hd hl
  refine ⟨h1, entryInfoList fs it.fileInfo.absoluteFilePath, ?_, ?_,
    entryInfoList_names_strict hraw hnd, entryInfoList_perm hraw⟩
  · rw [childCount_of_load hload hs1, hlen]
  · intro fs1 i hi
    obtain ⟨c, ic, hc, hic, hinfo⟩ := hkids i hi
    refine ⟨c, ic, ?_, hic, hinfo⟩
    rw [child_of_load (loadChildren_settled fs1 hs1 (Or.inl hl1)) hs1]
    have hi1 : (i : Int) < (it1.children.length : Int) := by omega
    rw [if_pos ⟨by omega, hi1⟩]
    simp [hc]

/-- Instance on the example: the root directory, holding `b.txt`, `a_dir`, `c.log` on disk. -/
theorem children_sorted_by_name_witness :
    (Reachable exRoot exModel exHeap0 ∧
      exFS (FileItem.mk0 exRoot none).fileInfo.absoluteFilePath =
        some [exDir "/r" ".", exDir "/r" "..", exFile "/r" "b.txt" "txt" 12, exDir "/r" "a_dir",
          exFile "/r" "c.log" "log" 7]) ∧
      ∃ (h1 : Heap) (infos : List QFileInfo),
        FileItem.childCount exFS exHeap0 0 = some (h1, (infos.length : Int)) ∧
        (∀ (fs1 : FileSystem) (i : Nat), i < infos.length →
          ∃ c ic, FileItem.child fs1 h1 0 (i : Int) = some (h1, some c) ∧
            h1.items[c]? = some ic ∧ infos[i]? = some ic.fileInfo) ∧
        (infos.map (fun e => e.fileName)).Sorted (fun a b => a < b) ∧
        infos.Perm
          ([exDir "/r" ".", exDir "/r" "..", exFile "/r" "b.txt" "txt" 12, exDir "/r" "a_dir",
            exFile "/r" "c.log" "log" 7].filter noDotAndDotDot) :=
  ⟨⟨exHeap0_reachable, by rfl⟩,
    children_sorted_by_name exRoot exModel exHeap0 exHeap0_reachable 0
      (FileItem.mk0 exRoot none) (by rfl) (by rfl) (by rfl) exFS _ (by rfl) (by decide)⟩

/-- Scenario: a directory holding `b.txt`, `a_dir`, `c.log` in this order on disk
is enumerated as `a_dir`, `b.txt`, `c.log`. -/
theorem children_scenario :
    (entryInfoList exFS "/r").map (fun e => e.fileName) = ["a_dir", "b.txt", "c.log"] ∧
      (exHeap1.items[0]?).map (fun it => it.children) = some [1, 2, 3] ∧
      (exHeap1.items.map (fun it => it.fileInfo.fileName)) = ["r", "a_dir", "b.txt", "c.log"] := by
  refine ⟨by rfl, by rfl, by rfl⟩

/-- C7: when the listing of an unloaded directory node of a reachable state fails,
`childCount` returns 0 and `child` the absent result for every row, as ordinary results (no
fault and no error value); the node is marked loaded with an empty child list after the one
listing attempt, and later calls, whatever the filesystem then, return the same results and
leave the heap and its listing log as they are: the listing is not retried. -/
theorem listing_failure_is_empty (rootInfo : QFileInfo) (m : FileModel) (h : Heap)
    (hr : Reachable rootInfo m h) (p : Nat) (it : FileItem) (hs : h.items[p]? = some it)
    (hd : it.fileInfo.isDir = true) (hl : it.childrenLoaded = false) (fs : FileSystem)
    (hfail : fs it.fileInfo.absoluteFilePath = none) :
    ∃ h1 it1, FileItem.childCount fs h p = some (h1, 0) ∧
      (∀ row : Int, FileItem.child fs h p row = some (h1, none)) ∧
      h1.items[p]? = some it1 ∧ it1.childrenLoaded = true ∧ it1.children = [] ∧
      h1.listed = it.fileInfo.absoluteFilePath :: h.listed ∧
      ∀ fs1 : FileSystem, FileItem.childCount fs1 h1 p = some (h1, 0) ∧
        ∀ row : Int, FileItem.child fs1 h1 p row = some (h1, none) := by
  have wf := WF_reachable hr
  obtain ⟨h1, it1, hload, hs1, hl1, hlisted, hlen, _⟩ := afterLoad_children wf fs hs hd hl
  rw [entryInfoList_fail hfail, List.length_nil] at hlen
  have hnil : it1.children = [] := List.length_eq_zero.mp hlen
  refine ⟨h1, it1, ?_, ?_, hs1, hl1, hnil, hlisted, fun fs1 => ⟨?_, ?_⟩⟩
  · rw [childCount_of_load hload hs1, hnil]; rfl
  · intro row
    rw [child_of_load hload hs1, hnil]; simp
  · rw [childCount_of_load (loadChildren_settled fs1 hs1 (Or.inl hl1)) hs1, hnil]; rfl
  · intro row
    rw [child_of_load (loadChildren_settled fs1 hs1 (Or.inl hl1)) hs1, hnil]; simp

/-- Instance on the example: the root on a filesystem where every listing fails. -/
theorem listing_failure_is_empty_witness :
    (Reachable exRoot exModel exHeap0 ∧
      (fun _ => none : FileSystem) (FileItem.mk0 exRoot none).fileInfo.absoluteFilePath = none) ∧
      ∃ h1 it1, FileItem.childCount (fun _ => none) exHeap0 0 = some (h1, 0) ∧
        (∀ row : Int, FileItem.child (fun _ => none) exHeap0 0 row = some (h1, none)) ∧
        h1.items[0]? = some it1 ∧ it1.childrenLoaded = true ∧ it1.children = [] ∧
        h1.listed = (FileItem.mk0 exRoot none).fileInfo.absoluteFilePath :: exHeap0.listed ∧
        ∀ fs1 : FileSystem, FileItem.childCount fs1 h1 0 = some (h1, 0) ∧
          ∀ row : Int, FileItem.child fs1 h1 0 row = some (h1, none) :=
  ⟨⟨exHeap0_reachable, rfl⟩,
    listing_failure_is_empty exRoot exModel exHeap0 exHeap0_reachable 0
      (FileItem.mk0 exRoot none) (by rfl) (by rfl) (by rfl) (fun _ => none) rfl⟩

/-! ## Field values -/

/-- Every character produced by the digit loop of `Nat.repr` is a decimal digit. -/
theorem toDigitsCore_isDigit : ∀ (fuel n : Nat) (ds : List Char),
    (∀ c ∈ ds, c.isDigit = true) → ∀ c ∈ Nat.toDigitsCore 10 fuel n ds, c.isDigit = true := by
  intro fuel
  induction fuel with
  | zero => intro n ds hds c hc; exact hds c hc
  | succ k ih =>
    intro n ds hds c hc
    have hd : (Nat.digitChar (n % 10)).isDigit = true := by
      have hlt : n % 10 < 10 := Nat.mod_lt _ (by decide)
      generalize n % 10 = d at hlt
      interval_cases d <;> decide
    have hds1 : ∀ c ∈ Nat.digitChar (n % 10) :: ds, c.isDigit = true := by
      intro c hc
      rcases List.mem_cons.mp hc with h | h
      · rw [h]; exact hd
      · exact hds c h
    simp only [Nat.toDigitsCore] at hc
    split at hc
    · exact hds1 c hc
    · exact ih _ _ hds1 c hc

/-- The decimal rendering of a number is never the marker `<DIR>`. -/
theorem number_ne_marker (n : Nat) : QString.number n ≠ "<DIR>" := by
  intro h
  have hmem : '<' ∈ (QString.number n).data := by rw [h]; decide
  have hdig := toDigitsCore_isDigit (n + 1) n [] (fun c hc => by cases hc) '<' hmem
  revert hdig
  decide

/-- C8: for every valid address, `data(address, SizeRole)` is the literal text `<DIR>` when
the addressed node is a directory, whatever byte size its entry reports, and `<DIR>` is not
the decimal rendering of any number; when the node is a file it is the decimal rendering of
the byte size. -/
theorem size_field (m : FileModel) (h : Heap) (idx : QModelIndex) (k : Nat) (it : FileItem)
    (hv : idx.isValid = true) (hp : idx.internalPointer = some k)
    (hk : h.items[k]? = some it) :
    (it.fileInfo.isDir = true → m.data h idx FileModel.SizeRole = some (some "<DIR>")) ∧
      (it.fileInfo.isDir = false →
        m.data h idx FileModel.SizeRole = some (some (Nat.repr it.fileInfo.size))) ∧
      ∀ n : Nat, Nat.repr n ≠ "<DIR>" := by
  have hdata : m.data h idx FileModel.SizeRole =
      some (some (if it.fileInfo.isDir then "<DIR>" else QString.number it.fileInfo.size)) := by
    have h1 : ¬ (FileModel.SizeRole = Qt.DisplayRole ∨ FileModel.SizeRole = Qt.UserRole + 1) := by
      decide
    have h2 : FileModel.SizeRole = Qt.UserRole + 2 := by decide
    simp only [FileModel.data, hv, hp, hk, FileItem.data, if_neg h1, if_pos h2]
    rfl
  refine ⟨fun hd => ?_, fun hd => ?_, number_ne_marker⟩
  · rw [hdata, hd]; rfl
  · rw [hdata, hd]; rfl

/-- Instance on the example: the directory `a_dir` (object 1). -/
theorem size_field_witness :
    ((createIndex 0 0 1).isValid = true ∧ (createIndex 0 0 1).internalPointer = some 1 ∧
      exHeap1.items[1]? = some (FileItem.mk0 (exDir "/r" "a_dir") (some 0))) ∧
      ((FileItem.mk0 (exDir "/r" "a_dir") (some 0)).fileInfo.isDir = true →
        exModel.data exHeap1 (createIndex 0 0 1) FileModel.SizeRole = some (some "<DIR>")) ∧
      ((FileItem.mk0 (exDir "/r" "a_dir") (some 0)).fileInfo.isDir = false →
        exModel.data exHeap1 (createIndex 0 0 1) FileModel.SizeRole =
          some (some (Nat.repr (FileItem.mk0 (exDir "/r" "a_dir") (some 0)).fileInfo.size))) ∧
      ∀ n : Nat, Nat.repr n ≠ "<DIR>" :=
  ⟨⟨by rfl, by rfl, by rfl⟩,
    size_field exModel exHeap1 (createIndex 0 0 1) 1 (FileItem.mk0 (exDir "/r" "a_dir") (some 0))
      (by rfl) (by rfl) (by rfl)⟩

/-- Scenario: the size field of the directory `a_dir` (reported size 4096) is
`<DIR>`, that of the file `b.txt` is `12`. -/
theorem size_scenario :
    exModel.data exHeap1 (createIndex 0 0 1) FileModel.SizeRole = some (some "<DIR>") ∧
      exModel.data exHeap1 (createIndex 1 0 2) FileModel.SizeRole = some (some "12") := by
  refine ⟨by rfl, by rfl⟩

/-! ## Parent addresses, row counts and fields -/

/-- In a well-formed heap `row` returns on every valid node. -/
theorem row_total {m : FileModel} {h : Heap} (wf : WF m h) {p : Nat} {ip : FileItem}
    (hp : h.items[p]? = some ip) : ∃ r, FileItem.row h p = some r := by
  cases hpar : ip.parentItem with
  | none => exact ⟨0, by simp only [FileItem.row, hp, hpar]⟩
  | some q =>
    obtain ⟨iq, hiq, _⟩ := wf.parentChild p ip q hp hpar
    exact ⟨_, row_eq hp hpar hiq⟩

/-- C11: in every reachable state `parent` returns the "no parent" sentinel when the address
is invalid, and, on a valid address of a node, when the parent link of the node is absent or
is the root; in every other case it returns `createIndex(row of the parent, 0, parent)`,
which is not the sentinel. -/
theorem parent_sentinel_cases (rootInfo : QFileInfo) (m : FileModel) (h : Heap)
    (hr : Reachable rootInfo m h) (idx : QModelIndex) :
    (idx.isValid = false → m.parent h idx = some QModelIndex.invalid) ∧
      ∀ (k : Nat) (ik : FileItem), idx.isValid = true → idx.internalPointer = some k →
        h.items[k]? = some ik →
        ((ik.parentItem = none ∨ ik.parentItem = some m.rootItem) →
          m.parent h idx = some QModelIndex.invalid) ∧
        ∀ p : Nat, ik.parentItem = some p → p ≠ m.rootItem →
          ∃ r, FileItem.row h p = some r ∧ m.parent h idx = some (createIndex r 0 p) ∧
            createIndex r 0 p ≠ QModelIndex.invalid := by
  have wf := WF_reachable hr
  constructor
  · intro hv
    simp only [FileModel.parent, hv]
    rfl
  · intro k ik hv hk hik
    constructor
    · rintro (hnone | hroot)
      · simp only [FileModel.parent, hv, hk, FileItem.parent, hik, hnone]
        rfl
      · simp only [FileModel.parent, hv, hk, FileItem.parent, hik, hroot]
        simp
    · intro p hp hne
      obtain ⟨ip, hip, _⟩ := wf.parentChild k ik p hik hp
      obtain ⟨r, hrow⟩ := row_total wf hip
      refine ⟨r, hrow, ?_, by simp [createIndex, QModelIndex.invalid]⟩
      simp only [FileModel.parent, hv, hk, FileItem.parent, hik, hp, hrow]
      simp [hne]

/-- Instance on the example: the state with the root and `a_dir` loaded, and the address of
`x.md`. -/
theorem parent_sentinel_cases_witness :
    Reachable exRoot exModel exHeap2 ∧
      ((createIndex 0 0 4).isValid = false →
        exModel.parent exHeap2 (createIndex 0 0 4) = some QModelIndex.invalid) ∧
      ∀ (k : Nat) (ik : FileItem), (createIndex 0 0 4).isValid = true →
        (createIndex 0 0 4).internalPointer = some k → exHeap2.items[k]? = some ik →
        ((ik.parentItem = none ∨ ik.parentItem = some exModel.rootItem) →
          exModel.parent exHeap2 (createIndex 0 0 4) = some QModelIndex.invalid) ∧
        ∀ p : Nat, ik.parentItem = some p → p ≠ exModel.rootItem →
          ∃ r, FileItem.row exHeap2 p = some r ∧
            exModel.parent exHeap2 (createIndex 0 0 4) = some (createIndex r 0 p) ∧
            createIndex r 0 p ≠ QModelIndex.invalid :=
  ⟨exHeap2_reachable,
    parent_sentinel_cases exRoot exModel exHeap2 exHeap2_reachable (createIndex 0 0 4)⟩

/-- Scenario: the parent of `x.md` is the address of `a_dir`, the parent of `a_dir` (a child
of the root) and of the sentinel is the sentinel. -/
theorem parent_scenario :
    exModel.parent exHeap2 (createIndex 0 0 4) = some (createIndex 0 0 1) ∧
      exModel.parent exHeap2 (createIndex 0 0 1) = some QModelIndex.invalid ∧
      exModel.parent exHeap2 QModelIndex.invalid = some QModelIndex.invalid := by
  refine ⟨by rfl, by rfl, by rfl⟩

/-- Counterexample to validity of every address in range: with column `-1` and row 0 of the
top level, which has 3 rows, `index` returns an address that is neither valid nor the
sentinel. -/
theorem index_row_range_counterexample :
    exModel.rowCount exFS exHeap0 QModelIndex.invalid = some (exHeap1, 3) ∧
      exModel.index exFS exHeap0 0 (-1) QModelIndex.invalid =
        some (exHeap1, createIndex 0 (-1) 1) ∧
      (createIndex 0 (-1) 1).isValid = false ∧
      createIndex 0 (-1) 1 ≠ QModelIndex.invalid := by
  refine ⟨by rfl, by rfl, by rfl, by decide⟩

/-- C12, amended: for every parent address that resolves to a node, `rowCount` returns the
`childCount` of that node, and for every row and column `index` returns, from the same state
and from the state after `rowCount`, an address that is the sentinel exactly when the row is
outside `0 ≤ row < rowCount`, and is valid exactly when the row is inside and the column is
not negative.  For a row inside, the address is `createIndex(row, column, c)` for the node
`c` that `child(row)` of the resolved node returns, the element at position `row` of its
child list; for a row outside, `child(row)` is absent.  On the sentinel `rowCount` is the
`childCount` of the root. -/
theorem index_row_range (m : FileModel) (fs : FileSystem) (h : Heap) (P : QModelIndex)
    (p : Nat) (it : FileItem) (hres : m.resolve P = some p) (hs : h.items[p]? = some it) :
    (∃ h1 n, m.rowCount fs h P = some (h1, n) ∧ FileItem.childCount fs h p = some (h1, n) ∧
      ∀ (row column : Int), ∃ I, m.index fs h row column P = some (h1, I) ∧
        (∀ fs1 : FileSystem, m.index fs1 h1 row column P = some (h1, I)) ∧
        (I = QModelIndex.invalid ↔ ¬ (0 ≤ row ∧ row < n)) ∧
        (I.isValid = true ↔ (0 ≤ row ∧ row < n ∧ 0 ≤ column)) ∧
        ((0 ≤ row ∧ row < n) → ∃ (c : Nat) (it1 : FileItem),
          h1.items[p]? = some it1 ∧ it1.children[row.toNat]? = some c ∧
          FileItem.child fs h p row = some (h1, some c) ∧ I = createIndex row column c) ∧
        (¬ (0 ≤ row ∧ row < n) → FileItem.child fs h p row = some (h1, none))) ∧
      m.rowCount fs h QModelIndex.invalid = FileItem.childCount fs h m.rootItem := by
  refine ⟨?_, rfl⟩
  obtain ⟨h1, it1, hl, hs1, hst, _, _⟩ := loadChildren_total fs hs
  refine ⟨h1, (it1.children.length : Int), ?_, childCount_of_load hl hs1, ?_⟩
  · simp only [FileModel.rowCount, hres]
    exact childCount_of_load hl hs1
  · intro row column
    have hc := child_of_load hl hs1 row
    have hc1 := fun fs1 : FileSystem =>
      child_of_load (loadChildren_settled fs1 hs1 hst) hs1 row
    by_cases hrange : 0 ≤ row ∧ row < (it1.children.length : Int)
    · have hlt : row.toNat < it1.children.length := by omega
      have hget : it1.children[row.toNat]? = some it1.children[row.toNat] :=
        List.getElem?_eq_getElem hlt
      rw [if_pos hrange, hget] at hc
      refine ⟨createIndex row column it1.children[row.toNat],
        index_of_child_some column hres hc, fun fs1 => ?_, ?_, ?_, ?_, ?_⟩
      · have hc2 := hc1 fs1
        rw [if_pos hrange, hget] at hc2
        exact index_of_child_some column hres hc2
      · simp [createIndex, QModelIndex.invalid, hrange]
      · simp [createIndex, QModelIndex.isValid, hrange]
      · intro _
        exact ⟨it1.children[row.toNat], it1, hs1, hget, hc, rfl⟩
      · intro hn
        exact absurd hrange hn
    · rw [if_neg hrange] at hc
      refine ⟨QModelIndex.invalid, index_of_child_none column hres hc, fun fs1 => ?_, ?_, ?_,
        ?_, ?_⟩
      · have hc2 := hc1 fs1
        rw [if_neg hrange] at hc2
        exact index_of_child_none column hres hc2
      · simp [hrange]
      · constructor
        · intro hv; exact absurd hv (by decide)
        · intro hv; exact absurd ⟨hv.1, hv.2.1⟩ hrange
      · intro hin
        exact absurd hin hrange
      · intro _
        exact hc

/-- Instance on the example: the top level of the freshly constructed model. -/
theorem index_row_range_witness :
    (exModel.resolve QModelIndex.invalid = some 0 ∧
      exHeap0.items[0]? = some (FileItem.mk0 exRoot none)) ∧
      (∃ h1 n, exModel.rowCount exFS exHeap0 QModelIndex.invalid = some (h1, n) ∧
        FileItem.childCount exFS exHeap0 0 = some (h1, n) ∧
        ∀ (row column : Int), ∃ I,
          exModel.index exFS exHeap0 row column QModelIndex.invalid = some (h1, I) ∧
          (∀ fs1 : FileSystem, exModel.index fs1 h1 row column QModelIndex.invalid =
            some (h1, I)) ∧
          (I = QModelIndex.invalid ↔ ¬ (0 ≤ row ∧ row < n)) ∧
          (I.isValid = true ↔ (0 ≤ row ∧ row < n ∧ 0 ≤ column)) ∧
          ((0 ≤ row ∧ row < n) → ∃ (c : Nat) (it1 : FileItem),
            h1.items[0]? = some it1 ∧ it1.children[row.toNat]? = some c ∧
            FileItem.child exFS exHeap0 0 row = some (h1, some c) ∧
            I = createIndex row column c) ∧
          (¬ (0 ≤ row ∧ row < n) → FileItem.child exFS exHeap0 0 row = some (h1, none))) ∧
      exModel.rowCount exFS exHeap0 QModelIndex.invalid =
        FileItem.childCount exFS exHeap0 exModel.rootItem :=
  ⟨⟨by rfl, by rfl⟩,
    index_row_range exModel exFS exHeap0 QModelIndex.invalid 0 (FileItem.mk0 exRoot none)
      (by rfl) (by rfl)⟩

/-- Scenario: on the top level of the examples (3 rows) `index` returns the addresses of
`a_dir`, `b.txt` and `c.log` (objects 1, 2, 3) for rows 0, 1, 2 with the column as given, and
the sentinel for rows 3 and -1. -/
theorem index_scenario :
    exModel.index exFS exHeap0 0 0 QModelIndex.invalid = some (exHeap1, createIndex 0 0 1) ∧
      exModel.index exFS exHeap0 1 0 QModelIndex.invalid = some (exHeap1, createIndex 1 0 2) ∧
      exModel.index exFS exHeap0 2 5 QModelIndex.invalid = some (exHeap1, createIndex 2 5 3) ∧
      exModel.index exFS exHeap0 3 0 QModelIndex.invalid = some (exHeap1, QModelIndex.invalid) ∧
      exModel.index exFS exHeap0 (-1) 0 QModelIndex.invalid =
        some (exHeap1, QModelIndex.invalid) := by
  refine ⟨by rfl, by rfl, by rfl, by rfl, by rfl⟩

/-- The declared field identifiers are `Qt::UserRole + 1` to `Qt::UserRole + 4`. -/
theorem roleNames_keys :
    FileModel.roleNames.map Prod.fst =
      [Qt.UserRole + 1, Qt.UserRole + 2, Qt.UserRole + 3, Qt.UserRole + 4] := by
  rfl

/-- Counterexample to emptiness outside the declared fields: `Qt::DisplayRole` is not a
declared field identifier, and `data` returns the file name for it. -/
theorem undeclared_field_counterexample :
    Qt.DisplayRole ∉ FileModel.roleNames.map Prod.fst ∧
      (FileItem.mk0 exRoot none).data Qt.DisplayRole = some "r" := by
  refine ⟨by decide, by rfl⟩

/-- C13, amended: for every node and every field identifier that is neither one of the four
declared field identifiers nor `Qt::DisplayRole`, `data` returns the empty `QVariant()`, on
the node and through the model on every address of the node; for `Qt::DisplayRole` it
returns the file name. -/
theorem undeclared_field (it : FileItem) (role : Int) (hd : role ≠ Qt.DisplayRole)
    (hn : role ∉ FileModel.roleNames.map Prod.fst) :
    it.data role = none ∧
      (∀ (m : FileModel) (h : Heap) (idx : QModelIndex) (k : Nat),
        idx.internalPointer = some k → h.items[k]? = some it →
        m.data h idx role = some none) ∧
      it.data Qt.DisplayRole = some it.fileInfo.fileName := by
  rw [roleNames_keys] at hn
  simp only [List.mem_cons, List.mem_singleton, List.not_mem_nil, or_false, not_or] at hn
  obtain ⟨h1, h2, h3, h4⟩ := hn
  have hdata : it.data role = none := by
    simp only [FileItem.data, hd, h1, h2, h3, h4, or_self, if_false]
  refine ⟨hdata, fun m h idx k hk hik => ?_, ?_⟩
  · unfold FileModel.data
    split
    · rfl
    · simp only [hk, hik, hdata]
  · unfold FileItem.data
    exact if_pos (Or.inl rfl)

/-- Instance on the example: role 7 on the root. -/
theorem undeclared_field_witness :
    ((7 : Int) ≠ Qt.DisplayRole ∧ (7 : Int) ∉ FileModel.roleNames.map Prod.fst) ∧
      ((FileItem.mk0 exRoot none).data 7 = none ∧
        (∀ (m : FileModel) (h : Heap) (idx : QModelIndex) (k : Nat),
          idx.internalPointer = some k → h.items[k]? = some (FileItem.mk0 exRoot none) →
          m.data h idx 7 = some none) ∧
        (FileItem.mk0 exRoot none).data Qt.DisplayRole =
          some (FileItem.mk0 exRoot none).fileInfo.fileName) :=
  ⟨⟨by decide, by decide⟩, undeclared_field (FileItem.mk0 exRoot none) 7 (by decide) (by decide)⟩

/-- C16: the four declared field identifiers are `Qt::UserRole + 1` (name) to
`Qt::UserRole + 4`, pairwise distinct, and for every node `data` returns a text for each of
them: the file name for name, `<DIR>` or the decimal size for size, the suffix for type and
the formatted time stamp for modified. -/
theorem declared_fields_served (it : FileItem) :
    FileModel.roleNames =
        [(Qt.UserRole + 1, "name"), (Qt.UserRole + 2, "size"), (Qt.UserRole + 3, "type"),
         (Qt.UserRole + 4, "modified")] ∧
      (FileModel.roleNames.map Prod.fst).Nodup ∧
      (∀ role ∈ FileModel.roleNames.map Prod.fst, ∃ s : String, it.data role = some s) ∧
      it.data FileModel.NameRole = some it.fileInfo.fileName ∧
      it.data FileModel.SizeRole =
        some (if it.fileInfo.isDir then "<DIR>" else QString.number it.fileInfo.size) ∧
      it.data FileModel.TypeRole = some it.fileInfo.suffix ∧
      it.data FileModel.ModifiedRole = some it.fileInfo.lastModified.toString := by
  have e1 : it.data FileModel.NameRole = some it.fileInfo.fileName := by
    have c : FileModel.NameRole = Qt.DisplayRole ∨ FileModel.NameRole = Qt.UserRole + 1 :=
      Or.inr rfl
    simp only [FileItem.data, if_pos c]
  have e2 : it.data FileModel.SizeRole =
      some (if it.fileInfo.isDir then "<DIR>" else QString.number it.fileInfo.size) := by
    have c1 : ¬ (FileModel.SizeRole = Qt.DisplayRole ∨ FileModel.SizeRole = Qt.UserRole + 1) := by
      decide
    have c2 : FileModel.SizeRole = Qt.UserRole + 2 := by decide
    simp only [FileItem.data, if_neg c1, if_pos c2]
  have e3 : it.data FileModel.TypeRole = some it.fileInfo.suffix := by
    have c1 : ¬ (FileModel.TypeRole = Qt.DisplayRole ∨ FileModel.TypeRole = Qt.UserRole + 1) := by
      decide
    have c2 : ¬ FileModel.TypeRole = Qt.UserRole + 2 := by decide
    have c3 : FileModel.TypeRole = Qt.UserRole + 3 := by decide
    simp only [FileItem.data, if_neg c1, if_neg c2, if_pos c3]
  have e4 : it.data FileModel.ModifiedRole = some it.fileInfo.lastModified.toString := by
    have c1 : ¬ (FileModel.ModifiedRole = Qt.DisplayRole ∨
        FileModel.ModifiedRole = Qt.UserRole + 1) := by decide
    have c2 : ¬ FileModel.ModifiedRole = Qt.UserRole + 2 := by decide
    have c3 : ¬ FileModel.ModifiedRole = Qt.UserRole + 3 := by decide
    have c4 : FileModel.ModifiedRole = Qt.UserRole + 4 := by decide
    simp only [FileItem.data, if_neg c1, if_neg c2, if_neg c3, if_pos c4]
  refine ⟨by rfl, by decide, ?_, e1, e2, e3, e4⟩
  intro role hrole
  rw [roleNames_keys] at hrole
  simp only [List.mem_cons, List.mem_singleton, List.not_mem_nil, or_false] at hrole
  rcases hrole with h | h | h | h
  · exact ⟨_, by rw [h]; exact e1⟩
  · exact ⟨_, by rw [h]; exact e2⟩
  · exact ⟨_, by rw [h]; exact e3⟩
  · exact ⟨_, by rw [h]; exact e4⟩

/-- Scenario: the four fields of the file `b.txt` of the examples. -/
theorem fields_scenario :
    (FileItem.mk0 (exFile "/r" "b.txt" "txt" 12) (some 0)).data FileModel.NameRole =
        some "b.txt" ∧
      (FileItem.mk0 (exFile "/r" "b.txt" "txt" 12) (some 0)).data FileModel.SizeRole =
        some "12" ∧
      (FileItem.mk0 (exFile "/r" "b.txt" "txt" 12) (some 0)).data FileModel.TypeRole =
        some "txt" ∧
      (FileItem.mk0 (exFile "/r" "b.txt" "txt" 12) (some 0)).data FileModel.ModifiedRole =
        some "2024-05-17 09:03" := by
  refine ⟨by rfl, by rfl, by rfl, by rfl⟩

/-! ## Permanence and frame of lazy loading -/

/-- Across `loadChildren` on node `n` every other object of the heap is kept as it is. -/
theorem loadChildren_frame {fs : FileSystem} {h h1 : Heap} {n : Nat}
    (hl : FileItem.loadChildren fs h n = some h1) (q : Nat) (x : FileItem) (hq : q ≠ n)
    (hx : h.items[q]? = some x) : h1.items[q]? = some x := by
  obtain ⟨it, hs, ⟨he, _⟩ | ⟨he, _, _⟩⟩ := loadChildren_cases hl
  · rw [he]; exact hx
  · rw [he]
    obtain ⟨x1, hx1, _, _, hsame⟩ := afterLoad_keep fs h n it hs q x hx
    rw [hsame hq] at hx1
    exact hx1

/-- Along any run of operations every object keeps its metadata and parent link, and a
loaded object is kept unchanged. -/
theorem calls_keep {m : FileModel} {h h1 : Heap} (st : Calls m h h1) (q : Nat) (x : FileItem)
    (hx : h.items[q]? = some x) :
    ∃ x1, h1.items[q]? = some x1 ∧ x1.parentItem = x.parentItem ∧
      x1.fileInfo = x.fileInfo ∧ (x.childrenLoaded = true → x1 = x) := by
  have step : ∀ {ha hb : Heap} (fs : FileSystem) (p : Nat),
      (∃ x1, ha.items[q]? = some x1 ∧ x1.parentItem = x.parentItem ∧
        x1.fileInfo = x.fileInfo ∧ (x.childrenLoaded = true → x1 = x)) →
      FileItem.loadChildren fs ha p = some hb →
      ∃ x2, hb.items[q]? = some x2 ∧ x2.parentItem = x.parentItem ∧
        x2.fileInfo = x.fileInfo ∧ (x.childrenLoaded = true → x2 = x) := by
    intro ha hb fs p ih hl
    obtain ⟨x1, hx1, hp1, hf1, hs1⟩ := ih
    obtain ⟨x2, hx2, hp2, hf2, hs2⟩ := loadChildren_keep hl q x1 hx1
    refine ⟨x2, hx2, hp2.trans hp1, hf2.trans hf1, fun hxl => ?_⟩
    have e1 := hs1 hxl
    subst e1
    exact hs2 hxl
  induction st with
  | refl => exact ⟨x, hx, rfl, rfl, fun _ => rfl⟩
  | index fs row column parent r _ hi ih =>
    obtain ⟨p, hl⟩ := index_load hi
    exact step fs p ih hl
  | rowCount fs parent n _ hi ih =>
    obtain ⟨p, hl⟩ := rowCount_load hi
    exact step fs p ih hl
  | child fs p row r _ hc ih => exact step fs p ih (child_inv hc).1
  | childCount fs p n _ hc ih => exact step fs p ih (childCount_inv hc).1
  | parent index r _ _ ih => exact ih
  | data index role v _ _ ih => exact ih
  | row p r _ _ ih => exact ih

/-- C14: once the loaded flag of a node is set, no run of operations (`index`, `parent`,
`rowCount`, `data`, `child`, `childCount`, `row`, on any nodes and addresses, each call
seeing whatever filesystem there is at its moment) changes the object of the node: the flag
stays set and the child list keeps the same nodes in the same order. -/
theorem loaded_is_permanent (m : FileModel) (h h1 : Heap) (st : Calls m h h1) (p : Nat)
    (it : FileItem) (hs : h.items[p]? = some it) (hl : it.childrenLoaded = true) :
    ∃ it1, h1.items[p]? = some it1 ∧ it1.childrenLoaded = true ∧
      it1.children = it.children ∧ it1 = it := by
  obtain ⟨x1, hx1, _, _, hsame⟩ := calls_keep st p it hs
  have e := hsame hl
  subst e
  exact ⟨x1, hx1, hl, rfl, rfl⟩

/-- Instance on the example: the loaded root, across an `index` call on the top level that
sees a filesystem where every listing fails, and the `rowCount` call that loads `a_dir`. -/
theorem loaded_is_permanent_witness :
    (Calls exModel exHeap1 exHeap2 ∧
      exHeap1.items[0]? = some (FileItem.mk exRoot none [1, 2, 3] true) ∧
      (FileItem.mk exRoot none [1, 2, 3] true).childrenLoaded = true) ∧
      ∃ it1, exHeap2.items[0]? = some it1 ∧ it1.childrenLoaded = true ∧
        it1.children = (FileItem.mk exRoot none [1, 2, 3] true).children ∧
        it1 = FileItem.mk exRoot none [1, 2, 3] true :=
  ⟨⟨Calls.rowCount exFS (createIndex 0 0 1) 1
      (Calls.index (fun _ => none) 0 0 QModelIndex.invalid (createIndex 0 0 1)
        (Calls.refl exHeap1) (by rfl)) (by rfl), by rfl, rfl⟩,
    loaded_is_permanent exModel exHeap1 exHeap2
      (Calls.rowCount exFS (createIndex 0 0 1) 1
        (Calls.index (fun _ => none) 0 0 QModelIndex.invalid (createIndex 0 0 1)
          (Calls.refl exHeap1) (by rfl)) (by rfl))
      0 (FileItem.mk exRoot none [1, 2, 3] true) (by rfl) rfl⟩

/-- C15: on a valid node `n`, `child` (for every row) and `childCount` return and leave one
and the same heap, in which every other object that existed before is exactly as it was
(metadata, parent link, child list and loaded flag), and the object of `n` has kept its
metadata and parent link: at most the child list and the loaded flag of `n` have changed.
The methods `row` and `data` are `const`: they are functions of the heap that return no
heap. -/
theorem loading_frame (fs : FileSystem) (h : Heap) (n : Nat) (it : FileItem)
    (hs : h.items[n]? = some it) :
    ∃ h1, (∀ row : Int, ∃ r, FileItem.child fs h n row = some (h1, r)) ∧
      (∃ c, FileItem.childCount fs h n = some (h1, c)) ∧
      (∀ (q : Nat) (x : FileItem), q ≠ n → h.items[q]? = some x → h1.items[q]? = some x) ∧
      ∃ it1, h1.items[n]? = some it1 ∧ it1.fileInfo = it.fileInfo ∧
        it1.parentItem = it.parentItem := by
  obtain ⟨h1, it1, hl, hs1, _, hf, hp⟩ := loadChildren_total fs hs
  exact ⟨h1, fun row => ⟨_, child_of_load hl hs1 row⟩, ⟨_, childCount_of_load hl hs1⟩,
    fun q x hq hx => loadChildren_frame hl q x hq hx, it1, hs1, hf, hp⟩

/-- Instance on the example: loading `a_dir` (object 1) in the state with the root
loaded. -/
theorem loading_frame_witness :
    exHeap1.items[1]? = some (FileItem.mk0 (exDir "/r" "a_dir") (some 0)) ∧
      ∃ h1, (∀ row : Int, ∃ r, FileItem.child exFS exHeap1 1 row = some (h1, r)) ∧
        (∃ c, FileItem.childCount exFS exHeap1 1 = some (h1, c)) ∧
        (∀ (q : Nat) (x : FileItem), q ≠ 1 → exHeap1.items[q]? = some x →
          h1.items[q]? = some x) ∧
        ∃ it1, h1.items[1]? = some it1 ∧
          it1.fileInfo = (FileItem.mk0 (exDir "/r" "a_dir") (some 0)).fileInfo ∧
          it1.parentItem = (FileItem.mk0 (exDir "/r" "a_dir") (some 0)).parentItem :=
  ⟨by rfl,
    loading_frame exFS exHeap1 1 (FileItem.mk0 (exDir "/r" "a_dir") (some 0)) (by rfl)⟩

/-- Scenario: after the root was loaded, a call that sees a filesystem where every listing
fails still reports its 3 rows and leaves the heap as it is. -/
theorem permanence_scenario :
    exModel.rowCount (fun _ => none) exHeap1 QModelIndex.invalid = some (exHeap1, 3) ∧
      exModel.index (fun _ => none) exHeap1 2 0 QModelIndex.invalid =
        some (exHeap1, createIndex 2 0 3) := by
  refine ⟨by rfl, by rfl⟩

/-! ## Rows of addresses and shape of the tree -/

/-- What `parent` returns: the sentinel, or the address made of a node other than the root
and of its `row`, with column 0. -/
theorem parent_inv {m : FileModel} {h : Heap} {idx I : QModelIndex}
    (hpar : m.parent h idx = some I) :
    I = QModelIndex.invalid ∨
      ∃ p r, FileItem.row h p = some r ∧ I = createIndex r 0 p ∧ p ≠ m.rootItem := by
  by_cases hv : idx.isValid = true
  · cases hk : idx.internalPointer with
    | none => simp [FileModel.parent, hv, hk] at hpar
    | some k =>
      cases hpk : FileItem.parent h k with
      | none => simp [FileModel.parent, hv, hk, hpk] at hpar
      | some op =>
        cases op with
        | none =>
          left
          simp only [FileModel.parent, hv, hk, hpk] at hpar
          exact (Option.some.inj hpar).symm
        | some p =>
          by_cases hroot : p = m.rootItem
          · left
            simp only [FileModel.parent, hv, hk, hpk, hroot] at hpar
            simpa using hpar.symm
          · cases hrow : FileItem.row h p with
            | none => simp [FileModel.parent, hv, hk, hpk, hroot, hrow] at hpar
            | some r =>
              right
              simp only [FileModel.parent, hv, hk, hpk, hrow] at hpar
              refine ⟨p, r, hrow, ?_, hroot⟩
              simpa [hroot] using hpar.symm
  · left
    have hv1 : idx.isValid = false := by simpa using hv
    simp only [FileModel.parent, hv1] at hpar
    simpa using hpar.symm

/-- C17: in every reachable state, a child that `child(r)` of a node returns has `row()`
equal to `r`, no child list holds a node twice, every valid address returned by `index` or
by `parent` has its row equal to the `row()` of its node, and a node without parent has
`row()` 0. -/
theorem address_row_is_position (rootInfo : QFileInfo) (m : FileModel) (h : Heap)
    (hr : Reachable rootInfo m h) :
    (∀ (fs : FileSystem) (p : Nat) (r : Int) (h1 : Heap) (c : Nat),
        FileItem.child fs h p r = some (h1, some c) → FileItem.row h1 c = some r) ∧
      (∀ (p : Nat) (ip : FileItem), h.items[p]? = some ip → ip.children.Nodup) ∧
      (∀ (fs : FileSystem) (row column : Int) (P : QModelIndex) (h1 : Heap) (I : QModelIndex),
        m.index fs h row column P = some (h1, I) → I.isValid = true →
        ∃ k, I.internalPointer = some k ∧ FileItem.row h1 k = some I.row) ∧
      (∀ idx I : QModelIndex, m.parent h idx = some I → I.isValid = true →
        ∃ k, I.internalPointer = some k ∧ FileItem.row h k = some I.row) ∧
      (∀ (p : Nat) (ip : FileItem), h.items[p]? = some ip → ip.parentItem = none →
        FileItem.row h p = some 0) := by
  have wf := WF_reachable hr
  have hchild : ∀ (fs : FileSystem) (p : Nat) (r : Int) (h1 : Heap) (c : Nat),
      FileItem.child fs h p r = some (h1, some c) → FileItem.row h1 c = some r := by
    intro fs p r h1 c hc
    obtain ⟨hl, it1, hs1, hr_eq⟩ := child_inv hc
    have wf1 : WF m h1 := WF_loadChildren wf hl
    have hrange : 0 ≤ r ∧ r < (it1.children.length : Int) := by
      by_contra hn
      rw [if_neg hn] at hr_eq
      cases hr_eq
    rw [if_pos hrange] at hr_eq
    obtain ⟨_, _, _, hrow⟩ := row_of_child wf1 hs1 hr_eq.symm
    rw [hrow]
    congr 1
    omega
  refine ⟨hchild, fun p ip hp => wf.nodup p ip hp, ?_, ?_, ?_⟩
  · intro fs row column P h1 I hi hv
    obtain ⟨p, r, _, hch, ⟨c, hrc, hI⟩ | ⟨_, hI⟩⟩ := index_inv hi
    · rw [hrc] at hch
      rw [hI]
      exact ⟨c, rfl, hchild fs p row h1 c hch⟩
    · rw [hI] at hv
      exact absurd hv (by decide)
  · intro idx I hpar hv
    rcases parent_inv hpar with hI | ⟨p, r, hrow, hI, _⟩
    · rw [hI] at hv
      exact absurd hv (by decide)
    · rw [hI]
      exact ⟨p, rfl, hrow⟩
  · intro p ip hp hnone
    simp only [FileItem.row, hp, hnone]

/-- Instance on the example: the state with the root and `a_dir` loaded. -/
theorem address_row_is_position_witness :
    Reachable exRoot exModel exHeap2 ∧
      ((∀ (fs : FileSystem) (p : Nat) (r : Int) (h1 : Heap) (c : Nat),
          FileItem.child fs exHeap2 p r = some (h1, some c) → FileItem.row h1 c = some r) ∧
        (∀ (p : Nat) (ip : FileItem), exHeap2.items[p]? = some ip → ip.children.Nodup) ∧
        (∀ (fs : FileSystem) (row column : Int) (P : QModelIndex) (h1 : Heap)
            (I : QModelIndex),
          exModel.index fs exHeap2 row column P = some (h1, I) → I.isValid = true →
          ∃ k, I.internalPointer = some k ∧ FileItem.row h1 k = some I.row) ∧
        (∀ idx I : QModelIndex, exModel.parent exHeap2 idx = some I → I.isValid = true →
          ∃ k, I.internalPointer = some k ∧ FileItem.row exHeap2 k = some I.row) ∧
        (∀ (p : Nat) (ip : FileItem), exHeap2.items[p]? = some ip → ip.parentItem = none →
          FileItem.row exHeap2 p = some 0)) :=
  ⟨exHeap2_reachable, address_row_is_position exRoot exModel exHeap2 exHeap2_reachable⟩

/-- Scenario: `c.log` is the child at row 2 of the root and has `row()` 2; the root has
`row()` 0. -/
theorem row_scenario :
    FileItem.child exFS exHeap2 0 2 = some (exHeap2, some 3) ∧
      FileItem.row exHeap2 3 = some 2 ∧ FileItem.row exHeap2 0 = some 0 ∧
      FileItem.row exHeap2 4 = some 0 := by
  refine ⟨by rfl, by rfl, by rfl, by rfl⟩

/-- C18: in every reachable state, every node of the child list of `n` has `n` as parent
link; every node other than the root has a parent link to a node in whose child list it
stands exactly once, and it stands in no other child list; the root has no parent; a node
whose loaded flag is not set has an empty child list, and so has every file node, whose flag
is never set. -/
theorem tree_well_formed (rootInfo : QFileInfo) (m : FileModel) (h : Heap)
    (hr : Reachable rootInfo m h) :
    (∀ (n : Nat) (it : FileItem) (c : Nat), h.items[n]? = some it → c ∈ it.children →
        ∃ ic, h.items[c]? = some ic ∧ ic.parentItem = some n) ∧
      (∀ (c : Nat) (ic : FileItem), h.items[c]? = some ic → c ≠ m.rootItem →
        ∃ p ip, ic.parentItem = some p ∧ h.items[p]? = some ip ∧ ip.children.count c = 1 ∧
          ∀ (q : Nat) (iq : FileItem), h.items[q]? = some iq → c ∈ iq.children → q = p) ∧
      (∃ rt, h.items[m.rootItem]? = some rt ∧ rt.parentItem = none) ∧
      (∀ (n : Nat) (it : FileItem), h.items[n]? = some it → it.childrenLoaded = false →
        it.children = []) ∧
      (∀ (n : Nat) (it : FileItem), h.items[n]? = some it → it.fileInfo.isDir = false →
        it.childrenLoaded = false ∧ it.children = []) := by
  have wf := WF_reachable hr
  refine ⟨wf.childParent, ?_, wf.root, wf.unloaded, ?_⟩
  · intro c ic hc hne
    cases hpar : ic.parentItem with
    | none => exact absurd (wf.rootOnly c ic hc hpar) hne
    | some p =>
      obtain ⟨ip, hip, hmem⟩ := wf.parentChild c ic p hc hpar
      refine ⟨p, ip, rfl, hip, List.count_eq_one_of_mem (wf.nodup p ip hip) hmem, ?_⟩
      intro q iq hq hcq
      obtain ⟨ic1, hic1, hic1p⟩ := wf.childParent q iq c hq hcq
      rw [hc] at hic1
      cases hic1
      rw [hpar] at hic1p
      exact (Option.some.inj hic1p).symm
  · intro n it hn hfile
    have hcl : it.childrenLoaded = false := by
      cases hl : it.childrenLoaded with
      | false => rfl
      | true =>
        rw [wf.loadedDir n it hn hl] at hfile
        cases hfile
    exact ⟨hcl, wf.unloaded n it hn hcl⟩

/-- Instance on the example: the state with the root and `a_dir` loaded. -/
theorem tree_well_formed_witness :
    Reachable exRoot exModel exHeap2 ∧
      ((∀ (n : Nat) (it : FileItem) (c : Nat), exHeap2.items[n]? = some it → c ∈ it.children →
          ∃ ic, exHeap2.items[c]? = some ic ∧ ic.parentItem = some n) ∧
        (∀ (c : Nat) (ic : FileItem), exHeap2.items[c]? = some ic → c ≠ exModel.rootItem →
          ∃ p ip, ic.parentItem = some p ∧ exHeap2.items[p]? = some ip ∧
            ip.children.count c = 1 ∧
            ∀ (q : Nat) (iq : FileItem), exHeap2.items[q]? = some iq → c ∈ iq.children →
              q = p) ∧
        (∃ rt, exHeap2.items[exModel.rootItem]? = some rt ∧ rt.parentItem = none) ∧
        (∀ (n : Nat) (it : FileItem), exHeap2.items[n]? = some it →
          it.childrenLoaded = false → it.children = []) ∧
        (∀ (n : Nat) (it : FileItem), exHeap2.items[n]? = some it →
          it.fileInfo.isDir = false → it.childrenLoaded = false ∧ it.children = [])) :=
  ⟨exHeap2_reachable, tree_well_formed exRoot exModel exHeap2 exHeap2_reachable⟩

/-- Scenario: the objects of the state with the root and `a_dir` loaded, as parent link,
child list and loaded flag. -/
theorem tree_scenario :
    exHeap2.items.map (fun it => (it.parentItem, it.children, it.childrenLoaded)) =
      [(none, [1, 2, 3], true), (some 0, [4], true), (some 0, [], false),
       (some 0, [], false), (some 1, [], false)] := by
  rfl

end FileBrowser
